import Mathlib

/-!
# Verification of the pearlacid PRNG test harness

Shallow embedding of the pearlacid repository (a PRNG zoo and statistical
test battery) and proofs about its generators, statistical tests and
utility functions.

Modelling conventions:
* Machine integers (`u32`, `u64`, `u128`) are modelled as `Nat`, with an
  explicit `% 2^w` wherever the Rust code wraps (`wrapping_mul`,
  `wrapping_add`, shifts that discard high bits, `as` casts).
* `f64` arithmetic is modelled by exact rational arithmetic (`ℚ`).  All
  quantities the verified statements depend on are integers or dyadic
  rationals that `f64` represents exactly; where a statement would depend
  on rounding or on IEEE special values this is noted at the statement.
* The special functions imported from the `statrs` crate (`erfc`,
  `gamma_lr`, `gamma_ur`) and `f64::sqrt`/`powf` are not part of the
  repository; the statistical tests are parameterised over them, so the
  theorems hold for every model of those functions.
* Stateful generators become explicit state-passing functions: `next`
  returns an output/state pair.
-/

namespace Pearlacid

/-! ## RANDU (`src/rngs.rs`, `lcg::Randu`)

State is a single `u32`.  `next_small` is the base LCG step
`state = (state * 65539) & 0x7fffffff` (the `u32` multiply wraps). -/

namespace Randu

/-- `Randu::next_small`: `self.state = (self.state * 65539) & 0x7fffffff`. -/
def next_small (s : ℕ) : ℕ := ((s * 65539) % 2 ^ 32) &&& 0x7fffffff

/-- `Randu::new` / `Randu::reseed`: `state = seed as u32`. -/
def new (seed : ℕ) : ℕ := seed % 2 ^ 32

/-- `Randu::next`: three base steps `a`, `b`, `c`, output
`(a << 42) | ((b & 0x3fffff) << 20) | (c & 0xfffff)` as `u64`.
Returns the output together with the successor state. -/
def next (s : ℕ) : ℕ × ℕ :=
  let a := next_small s
  let b := next_small a
  let c := next_small b
  (((a <<< 42) ||| ((b &&& 0x3fffff) <<< 20) ||| (c &&& 0xfffff)) % 2 ^ 64, c)

/-- `Randu::advance`: `delta` iterations of `next_small` (not of `next`). -/
def advance (delta : ℕ) (s : ℕ) : ℕ := next_small^[delta] s

end Randu

/-! ## XORShift128 (`src/rngs.rs`, `xorshift::XORShift128`)

State is four `u32` words. -/

/-- The four `u32` state words of `XORShift128`. -/
structure XSState where
  s0 : ℕ
  s1 : ℕ
  s2 : ℕ
  s3 : ℕ
  deriving DecidableEq, Repr

namespace XORShift128

/-- `XORShift128::new` / `reseed`: seeded from the two seed halves
`[seed as u32, (seed >> 32) as u32, seed as u32, (seed >> 32) as u32]`. -/
def new (seed : ℕ) : XSState :=
  ⟨seed % 2 ^ 32, (seed >>> 32) % 2 ^ 32, seed % 2 ^ 32, (seed >>> 32) % 2 ^ 32⟩

/-- `XORShift128::next_u32`: the classic xorshift128 step.  The `u32`
shift `t << 11` wraps modulo `2^32`. -/
def next_u32 (st : XSState) : ℕ × XSState :=
  let t0 := st.s3
  let s := st.s0
  let t1 := t0 ^^^ ((t0 <<< 11) % 2 ^ 32)
  let t2 := t1 ^^^ (t1 >>> 8)
  let n0 := t2 ^^^ s ^^^ (s >>> 19)
  (n0, ⟨n0, s, st.s1, st.s2⟩)

/-- `XORShift128::next`: two `next_u32` outputs concatenated as
`(a << 32) | b`. -/
def next (st : XSState) : ℕ × XSState :=
  let a := next_u32 st
  let b := next_u32 a.2
  (((a.1 <<< 32) ||| b.1), b.2)

/-- `XORShift128::advance`: `delta` iterations of `next_u32` (not of
`next`). -/
def advance (delta : ℕ) (st : XSState) : XSState :=
  (fun t => (next_u32 t).2)^[delta] st

end XORShift128

/-! ## StreamNLARXu128 (`src/rngs.rs`, `stream_nlarx`)

State is a single `u128`, composed as `(seed : u64) << 64 | counter`. -/

namespace StreamNLARXu128

/-- `u128::swap_bytes`: reverse the sixteen bytes of a `u128`. -/
def bswap128 (n : ℕ) : ℕ :=
  (List.range 16).foldl (fun acc i => acc ||| (((n >>> (8 * i)) % 256) <<< (8 * (15 - i)))) 0

/-- `u128::rotate_left` for a rotation `k` with `0 < k < 128`. -/
def rotl128 (k : ℕ) (n : ℕ) : ℕ :=
  ((n <<< k) % 2 ^ 128) ||| (n >>> (128 - k))

/-- One round of `mix_u128`: byte swap, xor-rotate, then two
data-dependent add-rotates (all additions wrap modulo `2^128`). -/
def mixRound (s : ℕ) : ℕ :=
  let s1 := bswap128 s
  let s2 := s1 ^^^ rotl128 17 s1
  let s3 := if s2 &&& 1 ≠ 0 then (s2 + rotl128 23 s2) % 2 ^ 128
    else (s2 + rotl128 41 s2) % 2 ^ 128
  if s3 &&& 2 ≠ 0 then (s3 + rotl128 33 s3) % 2 ^ 128
    else (s3 + rotl128 17 s3) % 2 ^ 128

/-- `mix_u128`: `N_ROUNDS = 6` rounds. -/
def mix_u128 (s : ℕ) : ℕ := mixRound^[6] s

/-- `StreamNLARXu128::new` / `reseed`:
`state = (seed as u128) << 64 | INITIAL_STATE` with `INITIAL_STATE = 0`. -/
def new (seed : ℕ) : ℕ := (((seed % 2 ^ 64) <<< 64) ||| 0)

/-- `StreamNLARXu128::advance`: wrapping-add `delta` into the low 64 bits,
leaving the high 64 bits unchanged. -/
def advance (delta : ℕ) (s : ℕ) : ℕ :=
  (s &&& 0xffffffffffffffff0000000000000000) |||
    (((s + delta) % 2 ^ 128) &&& 0x0000000000000000ffffffffffffffff)

/-- `StreamNLARXu128::next`: advance the counter by one, then output the
low 64 bits of the mixed state. -/
def next (s : ℕ) : ℕ × ℕ :=
  let s' := advance 1 s
  (mix_u128 s' % 2 ^ 64, s')

/-- `StreamNLARXu128::seek`: set the low 64 bits to `counter` (a `u64`),
leaving the high 64 bits unchanged. -/
def seek (counter : ℕ) (s : ℕ) : ℕ :=
  (s &&& 0xffffffffffffffff0000000000000000) ||| counter

/-- The state reached from `new seed` after `k` calls of `next`. -/
def stateAfter (seed k : ℕ) : ℕ := (fun s => (next s).2)^[k] (new seed)

end StreamNLARXu128

/-- The high-half mask of `StreamNLARXu128` extracts `s / 2^64 * 2^64`. -/
theorem and_high_mask (s : ℕ) (hs : s < 2 ^ 128) :
    s &&& 0xffffffffffffffff0000000000000000 = s / 2 ^ 64 * 2 ^ 64 := by
  have hM : (0xffffffffffffffff0000000000000000 : ℕ) = (2 ^ 64 - 1) <<< 64 := by
    norm_num [Nat.shiftLeft_eq]
  have hR : s / 2 ^ 64 * 2 ^ 64 = (s >>> 64) <<< 64 := by
    rw [Nat.shiftRight_eq_div_pow, Nat.shiftLeft_eq]
  rw [hM, hR]
  refine Nat.eq_of_testBit_eq fun i => ?_
  rw [Nat.testBit_land, Nat.testBit_shiftLeft, Nat.testBit_shiftLeft,
    Nat.testBit_two_pow_sub_one, Nat.testBit_shiftRight]
  by_cases h64 : 64 ≤ i
  · by_cases h128 : i < 128
    · have h1 : i - 64 < 64 := by omega
      have h2 : 64 + (i - 64) = i := by omega
      simp [ge_iff_le, h64, h1, h2, Bool.and_comm]
    · have h1 : ¬(i - 64 < 64) := by omega
      have h2 : s.testBit (64 + (i - 64)) = false :=
        Nat.testBit_lt_two_pow (lt_of_lt_of_le hs (Nat.pow_le_pow_right (by norm_num) (by omega)))
      have h2i : s.testBit i = false :=
        Nat.testBit_lt_two_pow (lt_of_lt_of_le hs (Nat.pow_le_pow_right (by norm_num) (by omega)))
      simp [ge_iff_le, h64, h1, h2, h2i]
  · simp [ge_iff_le, h64]

/-- The low-half mask of `StreamNLARXu128` is reduction modulo `2^64`. -/
theorem and_low_mask (s : ℕ) :
    s &&& 0x0000000000000000ffffffffffffffff = s % 2 ^ 64 := by
  have hM : (0x0000000000000000ffffffffffffffff : ℕ) = 2 ^ 64 - 1 := by norm_num
  rw [hM, Nat.and_pow_two_sub_one_eq_mod]

/-- Recombining a high half and a low half with `|||` is addition. -/
theorem highlow_lor_eq_add (k c : ℕ) (hc : c < 2 ^ 64) :
    (k * 2 ^ 64) ||| c = k * 2 ^ 64 + c := by
  rw [mul_comm k (2 ^ 64)]
  exact (Nat.mul_add_lt_is_or hc k).symm

namespace StreamNLARXu128

/-- Normal form of the NLARX state: `advance` leaves the seed half alone
and wrap-adds into the counter half. -/
theorem state_lt (seed c : ℕ) (hseed : seed < 2 ^ 64) (hc : c < 2 ^ 64) :
    seed * 2 ^ 64 + c < 2 ^ 128 := by
  have h1 : (seed + 1) * 2 ^ 64 ≤ 2 ^ 64 * 2 ^ 64 :=
    Nat.mul_le_mul_right _ hseed
  calc seed * 2 ^ 64 + c < (seed + 1) * 2 ^ 64 := by ring_nf; omega
  _ ≤ 2 ^ 64 * 2 ^ 64 := h1
  _ = 2 ^ 128 := by norm_num

theorem state_div (seed c : ℕ) (hc : c < 2 ^ 64) :
    (seed * 2 ^ 64 + c) / 2 ^ 64 = seed := by
  rw [mul_comm seed, Nat.mul_add_div (by positivity), Nat.div_eq_of_lt hc, Nat.add_zero]

/-- Normal form of the NLARX state: `advance` leaves the seed half alone
and wrap-adds into the counter half. -/
theorem advance_eq (seed c delta : ℕ) (hseed : seed < 2 ^ 64) (hc : c < 2 ^ 64) :
    advance delta (seed * 2 ^ 64 + c) = seed * 2 ^ 64 + (c + delta) % 2 ^ 64 := by
  rw [advance, and_high_mask _ (state_lt seed c hseed hc), and_low_mask,
    state_div seed c hc]
  have hmod : (seed * 2 ^ 64 + c + delta) % 2 ^ 128 % 2 ^ 64 = (c + delta) % 2 ^ 64 := by
    rw [Nat.mod_mod_of_dvd _ ⟨2 ^ 64, by norm_num⟩, Nat.add_assoc, mul_comm seed,
      Nat.mul_add_mod]
  rw [hmod, highlow_lor_eq_add _ _ (Nat.mod_lt _ (by positivity))]

/-- Normal form of `new`. -/
theorem new_eq (seed : ℕ) (hseed : seed < 2 ^ 64) :
    new seed = seed * 2 ^ 64 + 0 := by
  rw [new, Nat.mod_eq_of_lt hseed, Nat.or_zero, Nat.shiftLeft_eq, Nat.add_zero]

/-- Normal form of `seek`. -/
theorem seek_eq (seed c d : ℕ) (hseed : seed < 2 ^ 64) (hc : c < 2 ^ 64)
    (hd : d < 2 ^ 64) :
    seek c (seed * 2 ^ 64 + d) = seed * 2 ^ 64 + c := by
  rw [seek, and_high_mask _ (state_lt seed d hseed hd), state_div seed d hd,
    highlow_lor_eq_add _ _ hc]

/-- The state after `k` calls of `next` from a fresh generator carries the
seed in the high half and `k % 2^64` in the counter half. -/
theorem stateAfter_eq (seed k : ℕ) (hseed : seed < 2 ^ 64) :
    stateAfter seed k = seed * 2 ^ 64 + k % 2 ^ 64 := by
  induction k with
  | zero =>
    simp only [stateAfter, Function.iterate_zero_apply]
    rw [new_eq seed hseed]
    norm_num
  | succ n ih =>
    have hstep : stateAfter seed (n + 1) = (next (stateAfter seed n)).2 := by
      simp only [stateAfter, Function.iterate_succ_apply']
    rw [hstep, ih]
    show advance 1 _ = _
    rw [advance_eq seed _ 1 hseed (Nat.mod_lt _ (by positivity))]
    congr 1
    conv_rhs => rw [Nat.add_mod]
    norm_num

end StreamNLARXu128

/-- C9: for `StreamNLARXu128`, after `seek(c)` the next `next()` call
returns the same value as the `(c+1)`-th `next()` output of a freshly
constructed generator with the same seed; and `seek(counter)` sets the
low 64 bits of the 128-bit state to `counter` while leaving the high 64
bits unchanged. -/
theorem C9_nlarx_seek (seed c : ℕ) (hseed : seed < 2 ^ 64) (hc : c < 2 ^ 64) :
    (StreamNLARXu128.next (StreamNLARXu128.seek c (StreamNLARXu128.new seed))).1 =
      (StreamNLARXu128.next (StreamNLARXu128.stateAfter seed c)).1 ∧
    ∀ s, s < 2 ^ 128 →
      StreamNLARXu128.seek c s % 2 ^ 64 = c ∧
      StreamNLARXu128.seek c s / 2 ^ 64 = s / 2 ^ 64 := by
  constructor
  · have h1 : StreamNLARXu128.seek c (StreamNLARXu128.new seed) = seed * 2 ^ 64 + c := by
      rw [StreamNLARXu128.new_eq seed hseed]
      exact StreamNLARXu128.seek_eq seed c 0 hseed hc (by positivity)
    rw [h1, StreamNLARXu128.stateAfter_eq seed c hseed, Nat.mod_eq_of_lt hc]
  · intro s hs
    have h2 := and_high_mask s hs
    constructor
    · rw [StreamNLARXu128.seek, h2, highlow_lor_eq_add _ _ hc, mul_comm,
        Nat.mul_add_mod, Nat.mod_eq_of_lt hc]
    · rw [StreamNLARXu128.seek, h2, highlow_lor_eq_add _ _ hc,
        StreamNLARXu128.state_div _ _ hc]

/-- C9 witness at seed `5`, counter `3`. -/
theorem C9_nlarx_seek_witness :
    (5 : ℕ) < 2 ^ 64 ∧ (3 : ℕ) < 2 ^ 64 ∧
      ((StreamNLARXu128.next (StreamNLARXu128.seek 3 (StreamNLARXu128.new 5))).1 =
          (StreamNLARXu128.next (StreamNLARXu128.stateAfter 5 3)).1 ∧
        ∀ s, s < 2 ^ 128 →
          StreamNLARXu128.seek 3 s % 2 ^ 64 = 3 ∧
          StreamNLARXu128.seek 3 s / 2 ^ 64 = s / 2 ^ 64) :=
  ⟨by norm_num, by norm_num, C9_nlarx_seek 5 3 (by norm_num) (by norm_num)⟩

/-! ## Claim C2: `advance` versus repeated `next` -/

/-- C2 counterexample: for RANDU with seed 1, the output stream observed
after `advance(1)` differs from the output stream observed after a single
`next()` call on an identically seeded generator, because `advance` steps
the base LCG once while `next()` consumes three base steps.  So
`advance(delta)` is *not* observationally equivalent to `delta` calls of
`next()` for every generator. -/
theorem C2_counterexample_randu :
    (Randu.next (Randu.advance 1 (Randu.new 1))).1 ≠
      (Randu.next (Randu.next (Randu.new 1)).2).1 := by decide

/-- C2 (amended): `advance(delta)` advances the internal state by `delta`
*base* steps: `next_small` steps for RANDU (whose `next()` consumes three
base steps) and `next_u32` steps for XORShift128 (whose `next()` consumes
two).  Consequently `advance(3·delta)` on RANDU and `advance(2·delta)` on
XORShift128 reach exactly the state of `delta` `next()` calls. -/
theorem C2_advance_is_base_steps (d : ℕ) (s : ℕ) (st : XSState) :
    (Randu.advance d s = Randu.next_small^[d] s ∧
      Randu.advance (3 * d) s = (fun t => (Randu.next t).2)^[d] s) ∧
    (XORShift128.advance d st = (fun t => (XORShift128.next_u32 t).2)^[d] st ∧
      XORShift128.advance (2 * d) st = (fun t => (XORShift128.next t).2)^[d] st) := by
  refine ⟨⟨rfl, ?_⟩, rfl, ?_⟩
  · have h3 : (fun t => (Randu.next t).2) = Randu.next_small^[3] := by
      funext t; rfl
    rw [h3, Randu.advance, Function.iterate_mul]
  · have h2 : (fun t => (XORShift128.next t).2) =
        (fun t => (XORShift128.next_u32 t).2)^[2] := by
      funext t; rfl
    rw [h2, XORShift128.advance, Function.iterate_mul]

/-- `u64::to_le_bytes`: the eight little-endian bytes of a 64-bit word. -/
def to_le_bytes8 (n : ℕ) : List ℕ := (List.range 8).map fun i => (n >>> (8 * i)) % 256

/-! ## RijndaelStream (`src/rngs.rs`, `spn::RijndaelStream`)

State is a 128-bit counter plus a 16-byte key.  `next` increments the
counter and encrypts it with four applications of the x86 `aesenc`
instruction against the fixed key.  Byte strings are `List ℕ` of byte
values; `aesenc` is modelled from its architectural definition
(ShiftRows, SubBytes, MixColumns, then xor with the round key, on the
column-major AES state), with the S-box given by its defining formula
(multiplicative inverse in GF(2^8) followed by the affine map). -/

namespace RijndaelStream

/-- Multiplication by `x` in GF(2^8) modulo `x^8 + x^4 + x^3 + x + 1`. -/
def xtime (b : ℕ) : ℕ := ((b <<< 1) ^^^ (if 0x80 ≤ b then 0x1b else 0)) % 256

/-- Product in GF(2^8) (eight shift-and-add steps). -/
def gmul (a b : ℕ) : ℕ :=
  ((List.range 8).foldl (fun st _ =>
      (if st.2.2 % 2 = 1 then st.1 ^^^ st.2.1 else st.1, xtime st.2.1, st.2.2 / 2))
    ((0 : ℕ), a, b)).1

/-- Square-and-multiply exponentiation in GF(2^8); the fuel argument
bounds the recursion depth (9 suffices for exponents below `2^9`). -/
def gpowAux : ℕ → ℕ → ℕ → ℕ
  | 0, _, _ => 1
  | f + 1, b, n =>
    if n = 0 then 1
    else
      let r := gpowAux f (gmul b b) (n / 2)
      if n % 2 = 1 then gmul r b else r

/-- Power in GF(2^8). -/
def gpow (b n : ℕ) : ℕ := gpowAux 9 b n

/-- Rotate an 8-bit value left by `k` (for `0 < k < 8`). -/
def rotl8 (k x : ℕ) : ℕ := ((x <<< k) ||| (x >>> (8 - k))) % 256

/-- The AES S-box: multiplicative inverse in GF(2^8) (as `b^254`, which
is `b⁻¹` for `b ≠ 0` and `0` for `b = 0`) followed by the FIPS-197
affine transformation.  This definition reproduces the standard table
(e.g. `sbox 0x53 = 0xed`). -/
def sbox (b : ℕ) : ℕ :=
  let inv := gpow b 254
  inv ^^^ rotl8 1 inv ^^^ rotl8 2 inv ^^^ rotl8 3 inv ^^^ rotl8 4 inv ^^^ 0x63

/-- AES ShiftRows on the column-major state (xmm byte `j = r + 4c` holds
state entry `s[r][c]`; row `r` rotates left by `r`). -/
def shiftRows (s : List ℕ) : List ℕ :=
  (List.range 16).map fun j => s.getD (j % 4 + 4 * ((j / 4 + j % 4) % 4)) 0

/-- AES SubBytes. -/
def subBytes (s : List ℕ) : List ℕ := s.map sbox

/-- One column of AES MixColumns. -/
def mixOne (a0 a1 a2 a3 : ℕ) : List ℕ :=
  [xtime a0 ^^^ (xtime a1 ^^^ a1) ^^^ a2 ^^^ a3,
   a0 ^^^ xtime a1 ^^^ (xtime a2 ^^^ a2) ^^^ a3,
   a0 ^^^ a1 ^^^ xtime a2 ^^^ (xtime a3 ^^^ a3),
   (xtime a0 ^^^ a0) ^^^ a1 ^^^ a2 ^^^ xtime a3]

/-- AES MixColumns. -/
def mixColumns (s : List ℕ) : List ℕ :=
  ((List.range 4).map fun c =>
    mixOne (s.getD (4 * c) 0) (s.getD (4 * c + 1) 0) (s.getD (4 * c + 2) 0)
      (s.getD (4 * c + 3) 0)).flatten

/-- The x86 `aesenc` instruction: ShiftRows, SubBytes, MixColumns, then
xor with the round key (this model reproduces the vector from Intel's
AES-NI documentation). -/
def aesenc (st key : List ℕ) : List ℕ :=
  List.zipWith (fun a b => a ^^^ b) (mixColumns (subBytes (shiftRows st))) key

/-- `u128::to_le_bytes`. -/
def to_le_bytes16 (n : ℕ) : List ℕ := (List.range 16).map fun i => (n >>> (8 * i)) % 256

/-- `u128::from_le_bytes`. -/
def from_le_bytes (bs : List ℕ) : ℕ := bs.foldr (fun b acc => b + 256 * acc) 0

/-- Generator state: 128-bit counter and 16-byte key. -/
structure State where
  counter : ℕ
  key : List ℕ
  deriving DecidableEq, Repr

/-- The key layout of `RijndaelStream::new`/`reseed`:
`key[0..8] = seed.to_le_bytes()`, `key[8..16] = (!seed).to_le_bytes()`. -/
def mkKey (seed : ℕ) : List ℕ :=
  to_le_bytes8 seed ++ to_le_bytes8 (seed ^^^ 0xffffffffffffffff)

/-- `RijndaelStream::new`: counter `0` and the key derived from the seed. -/
def new (seed : ℕ) : State := ⟨0, mkKey seed⟩

/-- `RijndaelStream::reseed`: replaces the key but leaves the counter
unchanged (the source does not reset `self.counter`). -/
def reseed (seed : ℕ) (st : State) : State := ⟨st.counter, mkKey seed⟩

/-- `RijndaelStream::advance`: `self.counter += delta` (`u128` add). -/
def advance (delta : ℕ) (st : State) : State :=
  ⟨(st.counter + delta) % 2 ^ 128, st.key⟩

/-- `RijndaelStream::next`: advance by one, encrypt the counter with four
`aesenc` rounds against the key, output the low 64 bits. -/
def next (st : State) : ℕ × State :=
  let st' := advance 1 st
  let encrypted := (fun b => aesenc b st'.key)^[4] (to_le_bytes16 st'.counter)
  (from_le_bytes encrypted % 2 ^ 64, st')

end RijndaelStream

set_option maxRecDepth 100000 in
/-- C1: `RijndaelStream::reseed` is *not* observationally equivalent to
constructing a fresh generator: `reseed` replaces the key but keeps the
current counter, so after one `next()` call, `reseed(0)` leaves the
counter at `1` while `new(0)` starts at `0`, and the next output differs
(`0x251cf66e8edff863` versus `0xec7551da648fc2f9`).  This contradicts the
`RNG` trait documentation of `reseed` ("Reset to inital state, equivalent
to repalcing with ::new(seed)"). -/
theorem C1_rijndael_reseed_keeps_counter :
    (RijndaelStream.reseed 0 (RijndaelStream.next (RijndaelStream.new 0)).2).counter = 1 ∧
    (RijndaelStream.new 0).counter = 0 ∧
    (RijndaelStream.next
        (RijndaelStream.reseed 0 (RijndaelStream.next (RijndaelStream.new 0)).2)).1 ≠
      (RijndaelStream.next (RijndaelStream.new 0)).1 := by
  refine ⟨rfl, rfl, by decide⟩

/-! ## Conditioning (`src/conditioning.rs`) -/

/-- `u64::leading_zeros`, via a fuelled bit-length computation
(faithful for inputs below `2^64`). -/
def bitLenAux : ℕ → ℕ → ℕ
  | 0, _ => 0
  | f + 1, v => if v = 0 then 0 else 1 + bitLenAux f (v / 2)

/-- Number of leading zero bits of a `u64`. -/
def leading_zeros64 (v : ℕ) : ℕ := 64 - bitLenAux 64 v

/-- `testgens::OnlyOne::next`: always `u64::MAX`. -/
def OnlyOne_next : Unit → ℕ × Unit := fun _ => (0xffffffffffffffff, ())

/-- `testgens::OnlyZero::next`: always `0`. -/
def OnlyZero_next : Unit → ℕ × Unit := fun _ => (0, ())

/-- The rejection-sampling loop of `rs_random_int`: draw, mask, accept if
below `range`.  The loop in the source has no bound; the fuel argument
makes the model total, returning `none` where the source would still be
looping. -/
def rsLoop {σ : Type} (nextf : σ → ℕ × σ) (mask range : ℕ) (lower : ℤ) :
    ℕ → σ → Option ℤ
  | 0, _ => none
  | f + 1, st =>
    let p := nextf st
    let rn := p.1 &&& mask
    if rn < range then some ((rn : ℤ) + lower) else rsLoop nextf mask range lower f p.2

/-- `rs_random_int` as written in the source: note
`range = (upper - lower).min(0) as u64`, which is `0` whenever
`lower < upper`, so the sampling loop is never reached and `lower` is
returned directly. -/
def rs_random_int {σ : Type} (nextf : σ → ℕ × σ) (fuel : ℕ) (rng : σ)
    (lower upper : ℤ) : Option ℤ :=
  let range : ℕ := ((min (upper - lower) 0) % (2 : ℤ) ^ 64).toNat
  if range = 0 then some lower
  else
    let mask : ℕ := (2 ^ 64 - 1) >>> leading_zeros64 (range - 1)
    rsLoop nextf mask range lower fuel rng

/-- The algorithm `rs_random_int` is documented and specified to
implement (spec §9): `range = upper - lower` (positive case), mask
`u64::MAX >> (range - 1).leading_zeros()`, rejection sampling until the
masked draw is below `range`, result `draw + lower`.  Used only to
exhibit the divergence of the source's `.min(0)`. -/
def rs_random_int_claimed {σ : Type} (nextf : σ → ℕ × σ) (fuel : ℕ) (rng : σ)
    (lower upper : ℤ) : Option ℤ :=
  let range : ℕ := (upper - lower).toNat
  if range = 0 then some lower
  else
    let mask : ℕ := (2 ^ 64 - 1) >>> leading_zeros64 (range - 1)
    rsLoop nextf mask range lower fuel rng

/-- C6: because of the `.min(0)` (where the documented rejection sampler
requires the positive part), `rs_random_int` returns `lower` for every
`lower < upper` without ever drawing from the generator, for every
generator and fuel; the specified algorithm instead draws masked samples
— on the `OnlyOne` generator with `(lower, upper) = (0, 2)` it returns
`1`, while the source returns `0`. -/
theorem C6_rs_random_int_never_samples :
    (∀ {σ : Type} (nextf : σ → ℕ × σ) (fuel : ℕ) (rng : σ) (lower upper : ℤ),
      lower < upper → rs_random_int nextf fuel rng lower upper = some lower) ∧
    rs_random_int_claimed OnlyOne_next 5 () 0 2 = some 1 := by
  constructor
  · intro σ nextf fuel rng lower upper h
    have hmin : min (upper - lower) 0 = 0 := min_eq_right (by omega)
    simp only [rs_random_int, hmin]
    norm_num
  · decide

/-- C6 witness: at `lower = 0 < 2 = upper` the source's `rs_random_int`
returns `some 0` on the `OnlyOne` generator. -/
theorem C6_rs_random_int_never_samples_witness :
    (0 : ℤ) < 2 ∧ rs_random_int OnlyOne_next 5 () 0 2 = some 0 :=
  ⟨by norm_num, C6_rs_random_int_never_samples.1 OnlyOne_next 5 () 0 2 (by norm_num)⟩

/-! ## `u64_to_double` (`src/conditioning.rs`)

The function builds the bit pattern of an `f64` in `[1, 2)` from the low
52 bits of the input and subtracts `1.0`.  Every value on this path is
exactly representable in binary64 and the subtraction is exact, so the
rational-valued model below computes exactly the `f64` the source
returns. -/

/-- Value of an IEEE-754 binary64 bit pattern, as a rational.  (The
exponent pattern `0x7ff` encodes infinities and NaNs, which have no
rational value; this decoder treats it like a normal exponent.  The
verified code path only produces the exponent pattern `0x3ff`.) -/
def f64FromBits (b : ℕ) : ℚ :=
  let sign : ℕ := b / 2 ^ 63
  let ex : ℕ := b / 2 ^ 52 % 2 ^ 11
  let mant : ℕ := b % 2 ^ 52
  let mag : ℚ :=
    if ex = 0 then (mant : ℚ) / 2 ^ 52 * (2 : ℚ) ^ (-(1022 : ℤ))
    else (1 + (mant : ℚ) / 2 ^ 52) * (2 : ℚ) ^ ((ex : ℤ) - 1023)
  if sign % 2 = 1 then -mag else mag

/-- `u64_to_double`: or the low 52 bits of the input into the pattern
`0x3ff0000000000000` (an `f64` in `[1, 2)`), reinterpret, subtract `1.0`. -/
def u64_to_double (int : ℕ) : ℚ :=
  f64FromBits ((int &&& 0x000fffffffffffff) ||| 0x3ff0000000000000) - 1

/-- C10: `u64_to_double` maps every input `x` to exactly
`(x mod 2^52) / 2^52`, hence into `[0, 1)`, and depends only on the low
52 bits of `x`. -/
theorem C10_u64_to_double (x : ℕ) :
    u64_to_double x = (x % 2 ^ 52 : ℕ) / (2 ^ 52 : ℚ) ∧
    0 ≤ u64_to_double x ∧ u64_to_double x < 1 ∧
    u64_to_double x = u64_to_double (x % 2 ^ 52) := by
  have key : ∀ y : ℕ, u64_to_double y = (y % 2 ^ 52 : ℕ) / (2 ^ 52 : ℚ) := by
    intro y
    have hand : y &&& 0x000fffffffffffff = y % 2 ^ 52 := by
      rw [show (0x000fffffffffffff : ℕ) = 2 ^ 52 - 1 by norm_num,
        Nat.and_pow_two_sub_one_eq_mod]
    have hor : (y % 2 ^ 52) ||| 0x3ff0000000000000 = 2 ^ 52 * 1023 + y % 2 ^ 52 := by
      rw [Nat.lor_comm, show (0x3ff0000000000000 : ℕ) = 2 ^ 52 * 1023 by norm_num]
      exact (Nat.mul_add_lt_is_or (Nat.mod_lt _ (by positivity)) 1023).symm
    set m := y % 2 ^ 52 with hm
    have hmlt : m < 2 ^ 52 := Nat.mod_lt _ (by positivity)
    rw [u64_to_double, hand, hor]
    have hsign : (2 ^ 52 * 1023 + m) / 2 ^ 63 = 0 :=
      Nat.div_eq_of_lt (by omega)
    have hex : (2 ^ 52 * 1023 + m) / 2 ^ 52 % 2 ^ 11 = 1023 := by
      rw [Nat.mul_add_div (by positivity), Nat.div_eq_of_lt hmlt]
      norm_num
    have hmant : (2 ^ 52 * 1023 + m) % 2 ^ 52 = m := by
      rw [Nat.mul_add_mod, Nat.mod_eq_of_lt hmlt]
    simp only [f64FromBits, hsign, hex, hmant]
    norm_num
  have hlt : ((x % 2 ^ 52 : ℕ) : ℚ) / (2 ^ 52 : ℚ) < 1 := by
    rw [div_lt_one (by positivity)]
    exact_mod_cast Nat.mod_lt _ (show 0 < 2 ^ 52 by positivity)
  refine ⟨key x, ?_, ?_, ?_⟩
  · rw [key x]; positivity
  · rw [key x]; exact hlt
  · rw [key x, key (x % 2 ^ 52), Nat.mod_mod_of_dvd _ dvd_rfl]

/-! ## Binary matrix rank (`src/utils.rs`)

Matrices are 32 rows of `u32` values, modelled as functions `ℕ → ℕ`
(indices ≥ 32 are never read or written by the algorithms).  Column `c`
corresponds to bit `31 - c`.  The `for` loops over rows and columns of
the source become structural recursions (`findFrom`, `findDesc`,
`colsLoop`, `colsLoopRev`). -/

/-- Swap two rows. -/
def swapRows (m : ℕ → ℕ) (i j : ℕ) : ℕ → ℕ :=
  fun r => if r = i then m j else if r = j then m i else m r

/-- First index `r` in `[a, a + k)` with `p r`, scanning upwards
(the `for row in a..b { if p { … break } }` pattern). -/
def findFrom (p : ℕ → Bool) : ℕ → ℕ → Option ℕ
  | _, 0 => none
  | a, k + 1 => if p a then some a else findFrom p (a + 1) k

/-- First index `r` below `k` with `p r`, scanning downwards
(the `for row in (0..k).rev() { if p { … break } }` pattern). -/
def findDesc (p : ℕ → Bool) : ℕ → Option ℕ
  | 0 => none
  | k + 1 => if p k then some k else findDesc p k

/-- `for col in c..c+k` processing loop. -/
def colsLoop {σ : Type} (f : σ → ℕ → σ) : ℕ → ℕ → σ → σ
  | _, 0, st => st
  | c, k + 1, st => colsLoop f (c + 1) k (f st c)

/-- `for col in (0..k).rev()` processing loop. -/
def colsLoopRev {σ : Type} (f : σ → ℕ → σ) : ℕ → σ → σ
  | 0, st => st
  | k + 1, st => colsLoopRev f k (f st k)

/-- One column step of `rank_binary_matrix` (the forward-only variant):
find a pivot row at or below the current rank, swap it up, and clear the
column in all rows below the pivot row. -/
def rbmStep (st : (ℕ → ℕ) × ℕ) (col : ℕ) : (ℕ → ℕ) × ℕ :=
  let mask := 1 <<< (31 - col)
  match findFrom (fun r => decide (st.1 r &&& mask ≠ 0)) st.2 (32 - st.2) with
  | none => st
  | some p =>
    let m1 := swapRows st.1 st.2 p
    (fun r => if st.2 + 1 ≤ r ∧ r < 32 ∧ m1 r &&& mask ≠ 0 then m1 r ^^^ m1 st.2 else m1 r,
      st.2 + 1)

/-- `rank_binary_matrix`: forward elimination over all 32 columns,
returning the number of pivots found. -/
def rank_binary_matrix (m : ℕ → ℕ) : ℕ := (colsLoop rbmStep 0 32 (m, 0)).2

/-- One column of the forward pass of `rank_binary_matrix_nist`: the
pivot position is the diagonal row `col`; if it is empty, swap with the
first lower row carrying the column bit; then clear the column in the
rows below. -/
def nistFwdStep (m : ℕ → ℕ) (col : ℕ) : ℕ → ℕ :=
  let mask := 1 <<< (31 - col)
  let m1 := if m col &&& mask = 0 then
      match findFrom (fun r => decide (m r &&& mask ≠ 0)) (col + 1) (32 - (col + 1)) with
      | some r => swapRows m col r
      | none => m
    else m
  if m1 col &&& mask ≠ 0 then
    fun r => if col + 1 ≤ r ∧ r < 32 ∧ m1 r &&& mask ≠ 0 then m1 r ^^^ m1 col else m1 r
  else m1

/-- One column of the reverse pass of `rank_binary_matrix_nist`: as the
forward pass, but searching and eliminating upwards. -/
def nistRevStep (m : ℕ → ℕ) (col : ℕ) : ℕ → ℕ :=
  let mask := 1 <<< (31 - col)
  let m1 := if m col &&& mask = 0 then
      match findDesc (fun r => decide (m r &&& mask ≠ 0)) col with
      | some r => swapRows m col r
      | none => m
    else m
  if m1 col &&& mask ≠ 0 then
    fun r => if r < col ∧ m1 r &&& mask ≠ 0 then m1 r ^^^ m1 col else m1 r
  else m1

/-- `rank_binary_matrix_nist`: forward pass, reverse pass, then 32 minus
the number of zero rows. -/
def rank_binary_matrix_nist (m : ℕ → ℕ) : ℕ :=
  let m2 := colsLoopRev nistRevStep 32 (colsLoop nistFwdStep 0 32 m)
  32 - (List.range 32).countP (fun r => decide (m2 r = 0))

/-! ## Statistical tests (`src/stats.rs`)

`f64` arithmetic is modelled by `ℚ`; the statistic computations the
verified statements depend on are exact in both.  The imported special
functions (`statrs` `gamma_lr`, `gamma_ur`, `erfc`, and `f64::sqrt`,
`powf`, `exp`) are parameters of the test functions.  Division in `ℚ`
is total with `x / 0 = 0`, whereas `f64` produces `NaN`/`±inf`; the
statements about degenerate inputs are therefore made on numerators and
denominators, not on the quotient. -/

/-- `u64::count_ones` via a fuelled binary recursion (faithful for
inputs below `2^64`). -/
def popcountAux : ℕ → ℕ → ℕ
  | 0, _ => 0
  | f + 1, n => n % 2 + popcountAux f (n / 2)

/-- `u64::count_ones`. -/
def count_ones (n : ℕ) : ℕ := popcountAux 64 n

/-- `u64::trailing_zeros` (fuelled; `64` for input `0`). -/
def tzAux : ℕ → ℕ → ℕ
  | 0, _ => 0
  | f + 1, v => if v % 2 = 0 then 1 + tzAux f (v / 2) else 0

/-- `u64::trailing_zeros`. -/
def trailing_zeros64 (v : ℕ) : ℕ := tzAux 64 v

/-- `u64::trailing_ones` (fuelled). -/
def toAux : ℕ → ℕ → ℕ
  | 0, _ => 0
  | f + 1, v => if v % 2 = 1 then 1 + toAux f (v / 2) else 0

/-- `u64::trailing_ones`. -/
def trailing_ones64 (v : ℕ) : ℕ := toAux 64 v

/-- `slice::chunks_exact` (fuelled on the list length): consecutive
chunks of exactly `k` elements, discarding the remainder. -/
def chunksExactAux {α : Type} (k : ℕ) : ℕ → List α → List (List α)
  | 0, _ => []
  | f + 1, l => if k ≤ l.length ∧ k ≠ 0 then l.take k :: chunksExactAux k f (l.drop k) else []

/-- `slice::chunks_exact`. -/
def chunksExact {α : Type} (k : ℕ) (l : List α) : List (List α) :=
  chunksExactAux k l.length l

/-- `f64::clamp(0.0, 1.0)` on actual numbers. -/
def clamp01 (x : ℚ) : ℚ := min (max x 0) 1

/-- `utils::fast_log2`: `ceil(log2)` via `64 - (n - 1).leading_zeros()`. -/
def fast_log2 (in_int : ℕ) : ℕ :=
  if in_int = 0 then 0 else 64 - leading_zeros64 (in_int - 1)

/-- `utils::INV_ROOT2` (the decimal literal of the source; its `f64`
value is the nearest double, which no verified statement depends on). -/
def INV_ROOT2 : ℚ := 0.7071067811865475

/-- The byte-count table of `byte_distribution_test`, built exactly as in
the source: iterate the words, split each into its eight little-endian
bytes, and increment the count cell of each byte. -/
def byteCounts (data : List ℕ) : ℕ → ℕ :=
  data.foldl
    (fun cnt block =>
      (to_le_bytes8 block).foldl (fun c b8 => Function.update c b8 (c b8 + 1)) cnt)
    (fun _ => 0)

/-- `byte_distribution_test`, parameterised over `gamma_lr`. -/
def byte_distribution_test (glr : ℚ → ℚ → ℚ) (data : List ℕ) : ℚ :=
  if data = [] then 0
  else
    let counts := byteCounts data
    let expected : ℚ := ((data.length : ℚ) * 8) / 256
    let chi2 : ℚ := ((List.range 256).map fun v => ((counts v : ℚ) - expected) ^ 2 / expected).sum
    if chi2 = 0 then 0 else clamp01 (glr (chi2 / 2) (255 / 2))

/-- `leading_zeros_frequency_test`, parameterised over `gamma_lr` and
`f64::powf` (used inside the geometric CDF). -/
def leading_zeros_frequency_test (glr powf : ℚ → ℚ → ℚ) (data : List ℕ) : ℚ :=
  if data = [] then 0
  else
    let zero_count : ℕ := max (fast_log2 (data.length / 16384)) 1
    let expected_spacing : ℕ := 1 <<< zero_count
    let max_bin : ℕ := 4 * expected_spacing
    let base_p : ℚ := 1 / (expected_spacing : ℚ)
    let bin_spacing : ℚ := (max_bin : ℚ) / 256
    let geometric_cdf : ℚ → ℚ := fun x => 1 - powf (1 - base_p) x
    let mask : ℕ := (2 ^ 64 - 1) >>> (64 - zero_count)
    let scan := data.foldl
      (fun (st : (ℕ → ℚ) × ℕ) sample =>
        if sample &&& mask = 0 then
          let bin_index : ℕ := (⌊(st.2 : ℚ) / bin_spacing⌋).toNat
          (Function.update st.1 (min bin_index 255) (st.1 (min bin_index 255) + 1), 0)
        else (st.1, st.2 + 1))
      ((fun _ => (0 : ℚ)), (0 : ℕ))
    let bins := scan.1
    let total_samples : ℚ := ((List.range 256).map fun i => bins i).sum
    if total_samples = 0 then 0
    else
      let expectedf : ℕ → ℚ := fun i =>
        if i = 255 then (1 - geometric_cdf (bin_spacing * (i : ℚ))) * total_samples
        else
          (geometric_cdf (bin_spacing * ((i : ℚ) + 1)) - geometric_cdf (bin_spacing * (i : ℚ)))
            * total_samples
      let chi2 : ℚ := ((List.range 256).map fun i => (bins i - expectedf i) ^ 2 / expectedf i).sum
      if chi2 = 0 then 0 else clamp01 (glr ((255 : ℚ) / 2) (chi2 / 2))

/-- `count_excess_ones` (as the exact integer the `f64` loop computes). -/
def count_excess_ones (data : List ℕ) : ℤ :=
  data.foldl (fun acc s => acc + ((count_ones s : ℤ) - 32)) 0

/-- `monobit_test`, parameterised over `erfc` and `f64::sqrt`. -/
def monobit_test (erfcq sq : ℚ → ℚ) (data : List ℕ) : ℚ :=
  if data = [] then 0
  else
    clamp01 (erfcq
      ((|(count_excess_ones data : ℚ)| / sq ((data.length : ℚ) * 64)) * INV_ROOT2))

/-- `u64_block_bit_frequency_test`, parameterised over `gamma_lr`. -/
def u64_block_bit_frequency_test (glr : ℚ → ℚ → ℚ) (data : List ℕ) : ℚ :=
  if data = [] then 0
  else
    let expected : ℚ := 0.5
    let chi2 : ℚ := data.foldl (fun acc s => acc + ((count_ones s : ℚ) / 64 - expected) ^ 2) 0
    if chi2 = 0 then 0
    else clamp01 (glr ((data.length : ℚ) / 2) ((chi2 * (4 * 64)) / 2))

/-- The `runs` counter loop of `runs_test`: intra-word transitions via
`popcount(w ^ (w >> 1))`, a cross-word transition when bit 0 differs from
the previous word's MSB, and a decrement whenever the word's MSB is set. -/
def runsCountAux : List ℕ → ℕ → ℤ → ℤ
  | [], _, runs => runs
  | s :: rest, last_bit, runs =>
    let transitions := count_ones (s ^^^ (s >>> 1))
    let r1 := runs + transitions
    let first_bit := s &&& 1
    let r2 := if first_bit ≠ last_bit then r1 + 1 else r1
    let lb := (s >>> 63) &&& 1
    let r3 := if lb ≠ 0 then r2 - 1 else r2
    runsCountAux rest lb r3

/-- The `runs` statistic of `runs_test` (an exact integer), with
`last_bit` initialised from the MSB of the first word. -/
def runsCount (data : List ℕ) : ℤ :=
  runsCountAux data ((data.headD 0 >>> 63) &&& 1) 0

/-- `num_bits = test_data.len() * 64`. -/
def num_bits (data : List ℕ) : ℚ := (data.length : ℚ) * 64

/-- The `ones_ratio` of `runs_test`:
`((num_bits / 2) + excess_ones) / num_bits`. -/
def onesFraction (data : List ℕ) : ℚ :=
  (num_bits data / 2 + (count_excess_ones data : ℚ)) / num_bits data

/-- Numerator of the `erfc` argument of `runs_test`. -/
def runsStatNum (data : List ℕ) : ℚ :=
  |(runsCount data : ℚ) - 2 * onesFraction data * num_bits data * (1 - onesFraction data)|

/-- Denominator of the `erfc` argument of `runs_test`.  On an all-zero
or all-one buffer, `ones_ratio` is `0` or `1` and this denominator is
`0`: the source divides `0/0` (NaN in `f64`) with no guard. -/
def runsStatDen (sq : ℚ → ℚ) (data : List ℕ) : ℚ :=
  2 * sq (2 * num_bits data) * onesFraction data * (1 - onesFraction data)

/-- `runs_test`, parameterised over `erfc` and `f64::sqrt`. -/
def runs_test (erfcq sq : ℚ → ℚ) (data : List ℕ) : ℚ :=
  if data = [] then 0
  else clamp01 (erfcq (runsStatNum data / runsStatDen sq data))

/-- The inner `while value != 0` loop of `longest_ones_run`: scan the
groups of trailing ones, extending the first group by `current_run` when
the previous word ended in a one.  Fuel-based (a `u64` needs at most 64
iterations; 128 is used).  Returns the updated `(longest_run,
current_run)`. -/
def maxOnesWordAux : ℕ → ℕ → ℕ → ℕ → ℕ → ℕ × ℕ
  | 0, _, _, current_run, longest => (longest, current_run)
  | f + 1, value, last_bit, current_run, longest =>
    if value = 0 then (longest, current_run)
    else
      let ones := trailing_ones64 value
      let longest' := if last_bit = 1 then max longest (ones + current_run) else max longest ones
      if ones = 64 then (longest', ones)
      else maxOnesWordAux f (value >>> (ones + trailing_zeros64 value)) last_bit ones longest'

/-- Per-word step of `longest_ones_run`; the state is
`(last_bit, current_run, longest_run)`. -/
def processWord (st : ℕ × ℕ × ℕ) (sample : ℕ) : ℕ × ℕ × ℕ :=
  let lb0 := if sample = 0 then 0 else st.1
  let cr0 := if sample = 0 then 0 else st.2.1
  let r := maxOnesWordAux 128 sample lb0 cr0 st.2.2
  (sample >>> 63, r.2, r.1)

/-- Per-chunk step of `longest_ones_run`: `longest_run` restarts at `0`
for each 128-word chunk while `last_bit` and `current_run` persist; the
chunk's longest run is binned as `≤10, 11, 12, 13, 14, ≥15`. -/
def processChunk (st : ℕ × ℕ × (ℕ → ℚ)) (chunk : List ℕ) : ℕ × ℕ × (ℕ → ℚ) :=
  let r := chunk.foldl processWord (st.1, st.2.1, 0)
  let longest := r.2.2
  let idx := if longest ≤ 10 then 0 else if 15 ≤ longest then 5 else longest - 10
  (r.1, r.2.1, Function.update st.2.2 idx (st.2.2 idx + 1))

/-- The `PI_TABLE` of `longest_ones_run` (decimal literals as written). -/
def PI_TABLE : ℕ → ℚ := fun i =>
  [0.1344793662428856, 0.23272062093019485, 0.2389770820736885,
   0.17245227843523026, 0.10381045937538147, 0.11756019294261932].getD i 0

/-- `longest_ones_run`, parameterised over `gamma_ur`. -/
def longest_ones_run (gur : ℚ → ℚ → ℚ) (data : List ℕ) : ℚ :=
  if data = [] then 0
  else
    let r := (chunksExact 128 data).foldl processChunk (0, 0, fun _ => 0)
    let bins := r.2.2
    let n : ℚ := ((List.range 6).map fun i => bins i).sum
    let chi2 : ℚ := ((List.range 6).map fun i => (bins i - n * PI_TABLE i) ^ 2 / (n * PI_TABLE i)).sum
    if chi2 = 0 then 0 else clamp01 (gur ((5 : ℚ) / 2) (chi2 / 2))

/-- Matrix extraction of `matrix_ranks`: a 16-word chunk becomes 32 rows,
`matrix[2i] = chunk[i] >> 32` and `matrix[2i+1] = chunk[i] as u32`. -/
def matrixOfChunk (chunk : List ℕ) : ℕ → ℕ := fun r =>
  if r < 32 then
    let block := chunk.getD (r / 2) 0
    if r % 2 = 0 then (block >>> 32) % 2 ^ 32 else block % 2 ^ 32
  else 0

/-- The expected rank distribution of `matrix_ranks`. -/
def EXPECTED_DISTRIBUTION : ℕ → ℚ := fun i => [0.2888, 0.5776, 0.1336].getD i 0

/-- `matrix_ranks`, parameterised over `f64::exp`. -/
def matrix_ranks (expq : ℚ → ℚ) (data : List ℕ) : ℚ :=
  if data = [] then 0
  else
    let bins := (chunksExact 16 data).foldl
      (fun (bins : ℕ → ℚ) chunk =>
        let rank := rank_binary_matrix (matrixOfChunk chunk)
        let idx := if rank = 32 then 0 else if rank = 31 then 1 else 2
        Function.update bins idx (bins idx + 1))
      (fun _ => 0)
    let n : ℚ := ((List.range 3).map fun i => bins i).sum
    let chi2 : ℚ := ((List.range 3).map fun i =>
      (bins i - EXPECTED_DISTRIBUTION i * n) ^ 2 / (EXPECTED_DISTRIBUTION i * n)).sum
    clamp01 (expq ((-1) * chi2 / 2))

/-- C3 (empty-buffer part): all seven statistical tests return `0.0` on
the empty buffer, for every model of the special functions.  (The
`p ∈ [0,1]` part of the claim fails on the code: `runs_test` on a
constant buffer divides `0/0`, producing NaN with no guard; see the
`C5` theorem on the degenerate numerator and denominator.) -/
theorem C3_empty_buffer_zero (glr gur powf : ℚ → ℚ → ℚ) (erfcq sq expq : ℚ → ℚ) :
    byte_distribution_test glr [] = 0 ∧
    leading_zeros_frequency_test glr powf [] = 0 ∧
    monobit_test erfcq sq [] = 0 ∧
    runs_test erfcq sq [] = 0 ∧
    u64_block_bit_frequency_test glr [] = 0 ∧
    longest_ones_run gur [] = 0 ∧
    matrix_ranks expq [] = 0 :=
  ⟨rfl, rfl, rfl, rfl, rfl, rfl, rfl⟩

/-- Processing an all-zero word leaves the runs counter and the carried
last bit unchanged. -/
theorem runsCountAux_zero (n : ℕ) : ∀ r : ℤ, runsCountAux (List.replicate n 0) 0 r = r := by
  induction n with
  | zero => intro r; rfl
  | succ k ih =>
    intro r
    show runsCountAux (List.replicate k 0) 0 (r + 0) = r
    rw [add_zero]
    exact ih r

/-- The excess-ones statistic of an all-zero buffer is `-32·n`. -/
theorem count_excess_ones_zero (n : ℕ) :
    count_excess_ones (List.replicate n 0) = -(32 * n) := by
  have aux : ∀ (m : ℕ) (a : ℤ),
      (List.replicate m (0 : ℕ)).foldl (fun acc s => acc + ((count_ones s : ℤ) - 32)) a =
        a - 32 * m := by
    intro m
    induction m with
    | zero => intro a; simp
    | succ k ih =>
      intro a
      show (List.replicate k (0 : ℕ)).foldl _ (a + ((count_ones 0 : ℤ) - 32)) = _
      rw [ih]
      have : (count_ones 0 : ℤ) = 0 := rfl
      rw [this]
      push_cast
      ring
  exact (aux n 0).trans (by ring)

/-- C5: on a non-empty all-zero buffer the runs statistic degenerates:
the runs counter is `0`, `ones_ratio` is exactly `0`, and both the
numerator and the denominator of the `erfc` argument are `0` — the
source computes `erfc(0/0)`, which is NaN in `f64`, and has no NaN
guard (its final `clamp` propagates NaN). -/
theorem C5_runs_nan_degenerate (sq : ℚ → ℚ) (n : ℕ) (hn : 0 < n) :
    runsCount (List.replicate n 0) = 0 ∧
    onesFraction (List.replicate n 0) = 0 ∧
    runsStatNum (List.replicate n 0) = 0 ∧
    runsStatDen sq (List.replicate n 0) = 0 := by
  have hrc : runsCount (List.replicate n 0) = 0 := by
    rw [runsCount]
    have hh : (List.replicate n (0 : ℕ)).headD 0 = 0 := by
      cases n with
      | zero => rfl
      | succ k => rw [List.replicate_succ]; rfl
    rw [hh]
    exact runsCountAux_zero n 0
  have hnb : num_bits (List.replicate n 0) = 64 * n := by
    rw [num_bits, List.length_replicate]; ring
  have hof : onesFraction (List.replicate n 0) = 0 := by
    rw [onesFraction, hnb, count_excess_ones_zero]
    have hz : (64 : ℚ) * n / 2 + ((-(32 * (n : ℤ)) : ℤ) : ℚ) = 0 := by
      push_cast; ring
    rw [hz, zero_div]
  refine ⟨hrc, hof, ?_, ?_⟩
  · rw [runsStatNum, hrc, hof]
    simp
  · rw [runsStatDen, hof]
    ring

/-- C5 witness: the single-word all-zero buffer. -/
theorem C5_runs_nan_degenerate_witness :
    0 < 1 ∧
      (runsCount (List.replicate 1 0) = 0 ∧
        onesFraction (List.replicate 1 0) = 0 ∧
        runsStatNum (List.replicate 1 0) = 0 ∧
        runsStatDen (fun x => x) (List.replicate 1 0) = 0) :=
  ⟨Nat.one_pos, C5_runs_nan_degenerate (fun x => x) 1 Nat.one_pos⟩

/-- Folding count-increments over a byte list adds the occurrence count
of each value. -/
theorem countFold (l : List ℕ) : ∀ (cnt : ℕ → ℕ) (b : ℕ),
    (l.foldl (fun c x => Function.update c x (c x + 1)) cnt) b = cnt b + l.count b := by
  induction l with
  | nil => intro cnt b; simp
  | cons x xs ih =>
    intro cnt b
    rw [List.foldl_cons, ih, List.count_cons, Function.update_apply]
    by_cases hbx : b = x
    · subst hbx; simp; omega
    · have : (x == b) = false := by simp [Ne.symm hbx]
      simp [hbx, this]

/-- The byte-count table equals the occurrence count in the flattened
little-endian byte stream. -/
theorem byteCounts_count (data : List ℕ) (b : ℕ) :
    byteCounts data b = (data.flatMap to_le_bytes8).count b := by
  have aux : ∀ (blocks : List ℕ) (cnt : ℕ → ℕ),
      (blocks.foldl
        (fun c block => (to_le_bytes8 block).foldl (fun c b8 => Function.update c b8 (c b8 + 1)) c)
        cnt) b = cnt b + (blocks.flatMap to_le_bytes8).count b := by
    intro blocks
    induction blocks with
    | nil => intro cnt; simp
    | cons x xs ih =>
      intro cnt
      rw [List.foldl_cons, ih, countFold, List.flatMap_cons, List.count_append]
      omega
  rw [byteCounts, aux]
  omega

/-- Sum of a function mapped over `List.range` as a `Finset.range` sum. -/
theorem sum_map_range (n : ℕ) (f : ℕ → ℚ) :
    ((List.range n).map f).sum = (Finset.range n).sum f := by
  induction n with
  | zero => simp
  | succ k ih =>
    rw [List.range_succ, List.map_append, List.sum_append, Finset.sum_range_succ, ih]
    simp

/-- The flattened byte stream of `n` words has `8·n` bytes. -/
theorem flatMap_bytes_length (data : List ℕ) :
    (data.flatMap to_le_bytes8).length = 8 * data.length := by
  induction data with
  | nil => simp
  | cons x xs ih =>
    rw [List.flatMap_cons, List.length_append, ih]
    have : (to_le_bytes8 x).length = 8 := by simp [to_le_bytes8]
    rw [this, List.length_cons]
    ring

/-- C8: on a non-empty buffer, `byte_distribution_test` treats the input
as `8·N` little-endian bytes, counts the occurrences of each of the 256
byte values, forms the χ² statistic against the uniform expectation
`8·N/256` per cell, returns `0.0` when χ² is zero, and otherwise returns
`gamma_lr` applied with first argument `χ²/2` and second argument
`255/2`, clamped to `[0, 1]` — for every model `glr` of `gamma_lr`. -/
theorem C8_byte_distribution_exact (glr : ℚ → ℚ → ℚ) (data : List ℕ) (h : data ≠ []) :
    (data.flatMap to_le_bytes8).length = 8 * data.length ∧
    byte_distribution_test glr data =
      (let expected : ℚ := ((data.length : ℚ) * 8) / 256
       let chi2 : ℚ := (Finset.range 256).sum fun b =>
         (((data.flatMap to_le_bytes8).count b : ℚ) - expected) ^ 2 / expected
       if chi2 = 0 then 0 else clamp01 (glr (chi2 / 2) (255 / 2))) := by
  refine ⟨flatMap_bytes_length data, ?_⟩
  simp only [byte_distribution_test, if_neg h]
  have hchi :
      ((List.range 256).map fun v =>
          ((byteCounts data v : ℚ) - ((data.length : ℚ) * 8) / 256) ^ 2 /
            (((data.length : ℚ) * 8) / 256)).sum =
        (Finset.range 256).sum fun b =>
          (((data.flatMap to_le_bytes8).count b : ℚ) - ((data.length : ℚ) * 8) / 256) ^ 2 /
            (((data.length : ℚ) * 8) / 256) := by
    rw [sum_map_range]
    exact Finset.sum_congr rfl fun v _ => by rw [byteCounts_count]
  rw [hchi]

/-- C8 witness: the single-word buffer `[0]` with a concrete `glr`. -/
theorem C8_byte_distribution_exact_witness :
    ([0] : List ℕ) ≠ [] ∧
      ((([0] : List ℕ).flatMap to_le_bytes8).length = 8 * ([0] : List ℕ).length ∧
        byte_distribution_test (fun a x => a + x) [0] =
          (let expected : ℚ := ((([0] : List ℕ).length : ℚ) * 8) / 256
           let chi2 : ℚ := (Finset.range 256).sum fun b =>
             (((([0] : List ℕ).flatMap to_le_bytes8).count b : ℚ) - expected) ^ 2 / expected
           if chi2 = 0 then 0 else clamp01 ((fun a x => a + x) (chi2 / 2) (255 / 2)))) :=
  ⟨by decide, C8_byte_distribution_exact (fun a x => a + x) [0] (by decide)⟩

/-! ## C7: both rank implementations compute the GF(2) row rank

Rows are interpreted as vectors over `ZMod 2` via `toVec`; both
algorithms are shown to compute the dimension of the span of the 32 row
vectors, hence to agree on every input matrix. -/

/-- A `u32` row as a vector over GF(2) (coordinate `j` = bit `j`). -/
def toVec (n : ℕ) : Fin 32 → ZMod 2 := fun j => if n.testBit j.val then 1 else 0

/-- The set of row vectors of a matrix. -/
def rowSet (m : ℕ → ℕ) : Set (Fin 32 → ZMod 2) :=
  Set.range fun i : Fin 32 => toVec (m i.val)

theorem toVec_xor (a b : ℕ) : toVec (a ^^^ b) = toVec a + toVec b := by
  funext j
  simp only [toVec, Nat.testBit_xor, Pi.add_apply]
  rcases h1 : a.testBit j.val <;> rcases h2 : b.testBit j.val <;> (simp; try decide)

theorem toVec_zero : toVec 0 = 0 := by
  funext j; simp [toVec]

theorem toVec_ne_zero {a : ℕ} (ha : a < 2 ^ 32) (h : a ≠ 0) : toVec a ≠ 0 := by
  obtain ⟨i, hi, _⟩ := Nat.exists_most_significant_bit h
  have hilt : i < 32 := by
    by_contra hge
    rw [Nat.testBit_lt_two_pow
      (lt_of_lt_of_le ha (Nat.pow_le_pow_right (by norm_num) (by omega)))] at hi
    exact Bool.false_ne_true hi
  intro hc
  have := congrFun hc ⟨i, hilt⟩
  rw [toVec, if_pos hi] at this
  exact one_ne_zero this

theorem and_mask_ne (a b : ℕ) : (a &&& (1 <<< b) ≠ 0) ↔ a.testBit b = true := by
  rw [Nat.shiftLeft_eq, one_mul, Nat.and_two_pow]
  cases h : a.testBit b <;> simp [h]

/-- Bit peeling: a value below `2^(j+1)` without bit `j` is below `2^j`. -/
theorem lt_pow_succ_of_testBit_false {x j : ℕ} (hx : x < 2 ^ (j + 1))
    (hb : x.testBit j = false) : x < 2 ^ j := by
  have h2 : x / 2 ^ j < 2 := by
    rw [Nat.div_lt_iff_lt_mul (by positivity)]
    calc x < 2 ^ (j + 1) := hx
    _ = 2 * 2 ^ j := by ring
  have h3 : ¬(x / 2 ^ j % 2 = 1) := by
    simpa [Nat.testBit_to_div_mod] using hb
  have h4 : x / 2 ^ j = 0 := by
    generalize x / 2 ^ j = q at h2 h3 ⊢
    omega
  exact (Nat.div_eq_zero_iff (by positivity)).mp h4

/-- A value below `2^N` whose bits in `[t, N)` are all clear is below `2^t`. -/
theorem lt_two_pow_of_high_bits_false (t : ℕ) :
    ∀ N x : ℕ, x < 2 ^ N → (∀ j, t ≤ j → j < N → x.testBit j = false) → x < 2 ^ t := by
  intro N
  induction N with
  | zero =>
    intro x hx _
    have : (0 : ℕ) < 2 ^ t := by positivity
    omega
  | succ N ih =>
    intro x hx h
    by_cases hNt : N + 1 ≤ t
    · exact lt_of_lt_of_le hx (Nat.pow_le_pow_right (by norm_num) hNt)
    · exact ih x (lt_pow_succ_of_testBit_false hx (h N (by omega) (by omega)))
        (fun j hj hjN => h j hj (by omega))

theorem swapRows_at_i (m : ℕ → ℕ) (i j : ℕ) : swapRows m i j i = m j := by
  unfold swapRows
  rw [if_pos rfl]

theorem swapRows_at_j (m : ℕ → ℕ) (i j : ℕ) : swapRows m i j j = m i := by
  unfold swapRows
  rcases eq_or_ne j i with h | h
  · rw [if_pos h, h]
  · rw [if_neg h, if_pos rfl]

theorem swapRows_at_other (m : ℕ → ℕ) {i j r : ℕ} (h1 : r ≠ i) (h2 : r ≠ j) :
    swapRows m i j r = m r := by
  unfold swapRows
  rw [if_neg h1, if_neg h2]

theorem rowSet_swap (m : ℕ → ℕ) {i j : ℕ} (hi : i < 32) (hj : j < 32) :
    rowSet (swapRows m i j) = rowSet m := by
  apply Set.eq_of_subset_of_subset
  · rintro v ⟨r, rfl⟩
    dsimp only
    by_cases hri : r.val = i
    · rw [hri, swapRows_at_i]
      exact ⟨⟨j, hj⟩, rfl⟩
    · by_cases hrj : r.val = j
      · rw [hrj, swapRows_at_j]
        exact ⟨⟨i, hi⟩, rfl⟩
      · rw [swapRows_at_other m hri hrj]
        exact ⟨r, rfl⟩
  · rintro v ⟨r, rfl⟩
    dsimp only
    by_cases hri : r.val = i
    · refine ⟨⟨j, hj⟩, ?_⟩
      dsimp only
      rw [swapRows_at_j, hri]
    · by_cases hrj : r.val = j
      · refine ⟨⟨i, hi⟩, ?_⟩
        dsimp only
        rw [swapRows_at_i, hrj]
      · refine ⟨r, ?_⟩
        dsimp only
        rw [swapRows_at_other m hri hrj]

theorem span_rowSet_swap (m : ℕ → ℕ) {i j : ℕ} (hi : i < 32) (hj : j < 32) :
    Submodule.span (ZMod 2) (rowSet (swapRows m i j)) =
      Submodule.span (ZMod 2) (rowSet m) := by
  rw [rowSet_swap m hi hj]

/-- Xoring a fixed pivot row into any set of other rows preserves the
span of the rows. -/
theorem span_batch_xor (m : ℕ → ℕ) {p : ℕ} (hp : p < 32) (C : ℕ → Prop)
    [DecidablePred C] (hCp : ¬C p) :
    Submodule.span (ZMod 2) (rowSet (fun r => if C r then m r ^^^ m p else m r)) =
      Submodule.span (ZMod 2) (rowSet m) := by
  have h2 : ∀ a : ZMod 2, a + a = 0 := by decide
  have hvv : toVec (m p) + toVec (m p) = 0 := funext fun x => h2 _
  apply le_antisymm
  · rw [Submodule.span_le]
    rintro v ⟨r, rfl⟩
    dsimp only
    by_cases hcr : C r.val
    · rw [if_pos hcr, toVec_xor]
      exact Submodule.add_mem _ (Submodule.subset_span ⟨r, rfl⟩)
        (Submodule.subset_span ⟨⟨p, hp⟩, rfl⟩)
    · rw [if_neg hcr]
      exact Submodule.subset_span ⟨r, rfl⟩
  · rw [Submodule.span_le]
    rintro v ⟨r, rfl⟩
    dsimp only
    by_cases hcr : C r.val
    · have hkey : toVec (m r.val) =
          toVec (if C r.val then m r.val ^^^ m p else m r.val) +
            toVec (if C p then m p ^^^ m p else m p) := by
        rw [if_pos hcr, if_neg hCp, toVec_xor, add_assoc, hvv, add_zero]
      rw [hkey]
      exact Submodule.add_mem _ (Submodule.subset_span ⟨r, rfl⟩)
        (Submodule.subset_span ⟨⟨p, hp⟩, rfl⟩)
    · have hkey : toVec (m r.val) =
          toVec (if C r.val then m r.val ^^^ m p else m r.val) := by rw [if_neg hcr]
      rw [hkey]
      exact Submodule.subset_span ⟨r, rfl⟩

/-- Rows with pairwise distinct marked bits, each row owning its marked
bit and later rows avoiding earlier rows' marks, are independent. -/
theorem linearIndependent_marked_bits {k : ℕ} (v β : Fin k → ℕ)
    (hβlt : ∀ i, β i < 32) (hβ : ∀ i, (v i).testBit (β i) = true)
    (hside : ∀ i j, i < j → (v j).testBit (β i) = false) :
    LinearIndependent (ZMod 2) (fun i => toVec (v i)) := by
  rw [Fintype.linearIndependent_iff]
  intro g hg
  by_contra hne
  push_neg at hne
  obtain ⟨i₀, hi₀⟩ := hne
  have hSne : (Finset.univ.filter (fun i => g i ≠ 0)).Nonempty := ⟨i₀, by simp [hi₀]⟩
  obtain ⟨i, higS, hmin⟩ : ∃ i, g i ≠ 0 ∧ ∀ b, g b ≠ 0 → i ≤ b := by
    refine ⟨(Finset.univ.filter (fun i => g i ≠ 0)).min' hSne, ?_, ?_⟩
    · exact (Finset.mem_filter.mp (Finset.min'_mem _ hSne)).2
    · intro b hb
      exact Finset.min'_le _ b (Finset.mem_filter.mpr ⟨Finset.mem_univ b, hb⟩)
  have hval := congrFun hg ⟨β i, hβlt i⟩
  rw [Finset.sum_apply] at hval
  have hsum : ∑ j : Fin k, g j * toVec (v j) ⟨β i, hβlt i⟩ = 0 := by
    simpa [Pi.smul_apply, smul_eq_mul] using hval
  rw [Finset.sum_eq_single i] at hsum
  · rw [toVec, if_pos (hβ i), mul_one] at hsum
    exact higS hsum
  · intro b _ hbi
    rcases lt_or_gt_of_ne hbi with hlt | hgt
    · have : g b = 0 := by
        by_contra hgb
        exact absurd (hmin b hgb) (by omega)
      rw [this, zero_mul]
    · rw [toVec, if_neg (by rw [hside i b hgt]; exact Bool.false_ne_true), mul_zero]
  · intro h
    exact absurd (Finset.mem_univ i) h

/-- The mirror orientation: earlier rows avoid later rows' marks. -/
theorem linearIndependent_marked_bits_rev {k : ℕ} (v β : Fin k → ℕ)
    (hβlt : ∀ i, β i < 32) (hβ : ∀ i, (v i).testBit (β i) = true)
    (hside : ∀ i j, i < j → (v i).testBit (β j) = false) :
    LinearIndependent (ZMod 2) (fun i => toVec (v i)) := by
  rw [Fintype.linearIndependent_iff]
  intro g hg
  by_contra hne
  push_neg at hne
  obtain ⟨i₀, hi₀⟩ := hne
  have hSne : (Finset.univ.filter (fun i => g i ≠ 0)).Nonempty := ⟨i₀, by simp [hi₀]⟩
  obtain ⟨i, higS, hmax⟩ : ∃ i, g i ≠ 0 ∧ ∀ b, g b ≠ 0 → b ≤ i := by
    refine ⟨(Finset.univ.filter (fun i => g i ≠ 0)).max' hSne, ?_, ?_⟩
    · exact (Finset.mem_filter.mp (Finset.max'_mem _ hSne)).2
    · intro b hb
      exact Finset.le_max' _ b (Finset.mem_filter.mpr ⟨Finset.mem_univ b, hb⟩)
  have hval := congrFun hg ⟨β i, hβlt i⟩
  rw [Finset.sum_apply] at hval
  have hsum : ∑ j : Fin k, g j * toVec (v j) ⟨β i, hβlt i⟩ = 0 := by
    simpa [Pi.smul_apply, smul_eq_mul] using hval
  rw [Finset.sum_eq_single i] at hsum
  · rw [toVec, if_pos (hβ i), mul_one] at hsum
    exact higS hsum
  · intro b _ hbi
    rcases lt_or_gt_of_ne hbi with hlt | hgt
    · rw [toVec, if_neg (by rw [hside b i hlt]; exact Bool.false_ne_true), mul_zero]
    · have : g b = 0 := by
        by_contra hgb
        exact absurd (hmax b hgb) (by omega)
      rw [this, zero_mul]
  · intro h
    exact absurd (Finset.mem_univ i) h

/-- Invariant propagation along `colsLoop`. -/
theorem colsLoop_inv {σ : Type} (f : σ → ℕ → σ) (P : ℕ → σ → Prop) :
    ∀ (k c : ℕ) (st : σ), P c st →
      (∀ d s, c ≤ d → d < c + k → P d s → P (d + 1) (f s d)) →
      P (c + k) (colsLoop f c k st) := by
  intro k
  induction k with
  | zero => intro c st h _; exact h
  | succ k ih =>
    intro c st h hstep
    have h1 : P (c + 1) (f st c) := hstep c st le_rfl (by omega) h
    have h2 := ih (c + 1) (f st c) h1 (fun d s hd hdk => hstep d s (by omega) (by omega))
    have : c + 1 + k = c + (k + 1) := by omega
    rw [this] at h2
    exact h2

/-- Invariant propagation along `colsLoopRev`. -/
theorem colsLoopRev_inv {σ : Type} (f : σ → ℕ → σ) (P : ℕ → σ → Prop) :
    ∀ (n : ℕ) (st : σ), P n st →
      (∀ c s, c < n → P (c + 1) s → P c (f s c)) →
      P 0 (colsLoopRev f n st) := by
  intro n
  induction n with
  | zero => intro st h _; exact h
  | succ n ih =>
    intro st h hstep
    exact ih (f st n) (hstep n st (by omega) h)
      (fun c s hc => hstep c s (by omega))

theorem findFrom_some (p : ℕ → Bool) :
    ∀ (k a r : ℕ), findFrom p a k = some r →
      p r = true ∧ a ≤ r ∧ r < a + k ∧ ∀ j, a ≤ j → j < r → p j = false := by
  intro k
  induction k with
  | zero => intro a r h; exact absurd h (by simp [findFrom])
  | succ k ih =>
    intro a r h
    rw [findFrom] at h
    by_cases hpa : p a
    · rw [if_pos hpa] at h
      obtain rfl : a = r := by injection h
      exact ⟨hpa, le_rfl, by omega, fun j h1 h2 => absurd (lt_of_le_of_lt h1 h2) (lt_irrefl _)⟩
    · rw [if_neg hpa] at h
      obtain ⟨hp, hle, hlt, hall⟩ := ih (a + 1) r h
      refine ⟨hp, by omega, by omega, fun j h1 h2 => ?_⟩
      rcases Nat.eq_or_lt_of_le h1 with rfl | hgt
      · exact Bool.of_not_eq_true hpa
      · exact hall j hgt h2

theorem findFrom_none (p : ℕ → Bool) :
    ∀ (k a : ℕ), findFrom p a k = none → ∀ j, a ≤ j → j < a + k → p j = false := by
  intro k
  induction k with
  | zero => intro a _ j h1 h2; omega
  | succ k ih =>
    intro a h j h1 h2
    rw [findFrom] at h
    by_cases hpa : p a
    · rw [if_pos hpa] at h; exact absurd h (by simp)
    · rw [if_neg hpa] at h
      rcases Nat.eq_or_lt_of_le h1 with rfl | hgt
      · exact Bool.of_not_eq_true hpa
      · exact ih (a + 1) h j hgt (by omega)

theorem findDesc_some (p : ℕ → Bool) :
    ∀ (k r : ℕ), findDesc p k = some r →
      p r = true ∧ r < k ∧ ∀ j, r < j → j < k → p j = false := by
  intro k
  induction k with
  | zero => intro r h; exact absurd h (by simp [findDesc])
  | succ k ih =>
    intro r h
    rw [findDesc] at h
    by_cases hpk : p k
    · rw [if_pos hpk] at h
      obtain rfl : k = r := by injection h
      exact ⟨hpk, by omega, fun j h1 h2 => by omega⟩
    · rw [if_neg hpk] at h
      obtain ⟨hp, hlt, hall⟩ := ih r h
      refine ⟨hp, by omega, fun j h1 h2 => ?_⟩
      rcases Nat.lt_succ_iff_lt_or_eq.mp h2 with hj | rfl
      · exact hall j h1 hj
      · exact Bool.of_not_eq_true hpk

theorem findDesc_none (p : ℕ → Bool) :
    ∀ (k : ℕ), findDesc p k = none → ∀ j, j < k → p j = false := by
  intro k
  induction k with
  | zero => intro _ j h; omega
  | succ k ih =>
    intro h j hj
    rw [findDesc] at h
    by_cases hpk : p k
    · rw [if_pos hpk] at h; exact absurd h (by simp)
    · rw [if_neg hpk] at h
      rcases Nat.lt_succ_iff_lt_or_eq.mp hj with hj' | rfl
      · exact ih h j hj'
      · exact Bool.of_not_eq_true hpk

/-- Loop invariant of `rank_binary_matrix` before processing column `c`:
`rank ≤ c`, the span of the rows is unchanged, rows at or below `rank`
have all processed columns cleared, and the rows above `rank` form a
staircase of pivots with strictly decreasing leading bits. -/
def InvA (M0 : ℕ → ℕ) (c : ℕ) (st : (ℕ → ℕ) × ℕ) : Prop :=
  st.2 ≤ c ∧ st.2 ≤ 32 ∧
  (∀ r, st.1 r < 2 ^ 32) ∧
  Submodule.span (ZMod 2) (rowSet st.1) = Submodule.span (ZMod 2) (rowSet M0) ∧
  (∀ r, st.2 ≤ r → r < 32 → st.1 r < 2 ^ (32 - c)) ∧
  ∃ b : ℕ → ℕ,
    (∀ i j, i < j → j < st.2 → b j < b i) ∧
    (∀ i, i < st.2 →
      b i < 32 ∧ 32 - c ≤ b i ∧ (st.1 i).testBit (b i) = true ∧ st.1 i < 2 ^ (b i + 1))

theorem rbmStep_inv (M0 : ℕ → ℕ) (c : ℕ) (hc : c < 32) (st : (ℕ → ℕ) × ℕ)
    (h : InvA M0 c st) : InvA M0 (c + 1) (rbmStep st c) := by
  obtain ⟨m, k⟩ := st
  obtain ⟨hkc, hk32, hbound, hspan, hact, b, hdec, hstair⟩ := h
  dsimp only at hkc hk32 hbound hspan hact hdec hstair
  have h32c : 32 - c = (31 - c) + 1 := by omega
  have h32c1 : 32 - (c + 1) = 31 - c := by omega
  rcases hfind : findFrom (fun r => decide (m r &&& 1 <<< (31 - c) ≠ 0)) k (32 - k)
    with _ | p
  · -- no pivot for this column
    have hstep : rbmStep (m, k) c = (m, k) := by
      simp only [rbmStep, hfind]
    rw [hstep]
    have hnone := findFrom_none _ _ _ hfind
    refine ⟨by omega, hk32, hbound, hspan, ?_, b, hdec, ?_⟩
    · intro r hkr hr32
      have hfalse := hnone r hkr (by omega)
      rw [decide_eq_false_iff_not, not_not] at hfalse
      have hbit : (m r).testBit (31 - c) = false := by
        cases h' : (m r).testBit (31 - c)
        · rfl
        · exact absurd hfalse ((and_mask_ne _ _).mpr h')
      rw [h32c1]
      exact lt_pow_succ_of_testBit_false (h32c ▸ hact r hkr hr32) hbit
    · intro i hik
      obtain ⟨h1, h2, h3, h4⟩ := hstair i hik
      exact ⟨h1, by omega, h3, h4⟩
  · -- pivot found at row p
    obtain ⟨hp, hkp, hplt, -⟩ := findFrom_some _ _ _ _ hfind
    have hp32 : p < 32 := by omega
    have hkk32 : k < 32 := by omega
    have hpbit : (m p).testBit (31 - c) = true :=
      (and_mask_ne _ _).mp (of_decide_eq_true hp)
    have hstep : rbmStep (m, k) c =
        (fun r => if k + 1 ≤ r ∧ r < 32 ∧ swapRows m k p r &&& 1 <<< (31 - c) ≠ 0 then
            swapRows m k p r ^^^ swapRows m k p k
          else swapRows m k p r, k + 1) := by
      simp only [rbmStep, hfind]
    rw [hstep]
    set m1 := swapRows m k p with hm1
    have hm1k : m1 k = m p := swapRows_at_i m k p
    have hm1cases : ∀ r, m1 r = m p ∨ m1 r = m k ∨ (m1 r = m r ∧ r ≠ k ∧ r ≠ p) := by
      intro r
      by_cases hrk : r = k
      · left; rw [hrk]; exact hm1k
      · by_cases hrp : r = p
        · right; left; rw [hrp]; exact swapRows_at_j m k p
        · right; right; exact ⟨swapRows_at_other m hrk hrp, hrk, hrp⟩
    have hm1bound : ∀ r, m1 r < 2 ^ 32 := by
      intro r
      rcases hm1cases r with h | h | ⟨h, -, -⟩ <;> rw [h] <;> exact hbound _
    have hm1act : ∀ r, k ≤ r → r < 32 → m1 r < 2 ^ (32 - c) := by
      intro r hkr hr32
      rcases hm1cases r with h | h | ⟨h, -, -⟩ <;> rw [h]
      · exact hact p hkp hp32
      · exact hact k le_rfl hkk32
      · exact hact r hkr hr32
    have hm1kbit : (m1 k).testBit (31 - c) = true := by rw [hm1k]; exact hpbit
    refine ⟨by dsimp only; omega, by dsimp only; omega, ?_, ?_, ?_, ?_⟩
    · -- value bound
      intro r
      dsimp only
      split_ifs with hcond
      · exact Nat.xor_lt_two_pow (hm1bound r) (hm1bound k)
      · exact hm1bound r
    · -- span preservation
      dsimp only
      exact (span_batch_xor m1 hkk32
          (fun r => k + 1 ≤ r ∧ r < 32 ∧ m1 r &&& 1 <<< (31 - c) ≠ 0)
          (fun hcontra => absurd hcontra.1 (by omega))).trans
        ((span_rowSet_swap m hkk32 hp32).trans hspan)
    · -- processed columns cleared below the new rank
      intro r hk1r hr32
      dsimp only at hk1r hr32 ⊢
      rw [h32c1]
      split_ifs with hcond
      · have hrbit : (m1 r).testBit (31 - c) = true := (and_mask_ne _ _).mp hcond.2.2
        have hxlt : m1 r ^^^ m1 k < 2 ^ ((31 - c) + 1) :=
          h32c ▸ Nat.xor_lt_two_pow (hm1act r (by omega) hr32) (hm1act k le_rfl hkk32)
        have hxbit : (m1 r ^^^ m1 k).testBit (31 - c) = false := by
          rw [Nat.testBit_xor, hrbit, hm1kbit]
          rfl
        exact lt_pow_succ_of_testBit_false hxlt hxbit
      · have hmmask : m1 r &&& 1 <<< (31 - c) = 0 := by
          by_contra hne
          exact hcond ⟨hk1r, hr32, hne⟩
        have hnbit : (m1 r).testBit (31 - c) = false := by
          cases h' : (m1 r).testBit (31 - c)
          · rfl
          · exact absurd hmmask ((and_mask_ne _ _).mpr h')
        exact lt_pow_succ_of_testBit_false (h32c ▸ hm1act r (by omega) hr32) hnbit
    · -- staircase with the new pivot appended
      refine ⟨fun i => if i = k then 31 - c else b i, ?_, ?_⟩
      · intro i j hij hjk1
        dsimp only at hjk1 ⊢
        by_cases hjk : j = k
        · subst hjk
          rw [if_pos rfl, if_neg (by omega)]
          have := (hstair i (by omega)).2.1
          omega
        · have hjlt : j < k := by omega
          rw [if_neg hjk, if_neg (by omega)]
          exact hdec i j hij hjlt
      · intro i hik1
        dsimp only at hik1 ⊢
        by_cases hik : i = k
        · rw [if_pos hik, hik]
          have hcond2 : ¬(k + 1 ≤ k ∧ k < 32 ∧ m1 k &&& 1 <<< (31 - c) ≠ 0) :=
            fun hcontra => absurd hcontra.1 (by omega)
          rw [if_neg hcond2]
          refine ⟨by omega, by omega, hm1kbit, ?_⟩
          exact h32c ▸ hm1act k le_rfl hkk32
        · have hilt : i < k := by omega
          rw [if_neg hik]
          obtain ⟨h1, h2, h3, h4⟩ := hstair i hilt
          have hm1i : m1 i = m i := swapRows_at_other m (by omega) (by omega)
          have hcond2 : ¬(k + 1 ≤ i ∧ i < 32 ∧ m1 i &&& 1 <<< (31 - c) ≠ 0) :=
            fun hcontra => absurd hcontra.1 (by omega)
          rw [if_neg hcond2, hm1i]
          exact ⟨h1, by omega, h3, h4⟩

/-- The forward-only implementation computes the GF(2) row rank. -/
theorem rank_binary_matrix_eq_finrank (M0 : ℕ → ℕ) (hM0 : ∀ r, M0 r < 2 ^ 32) :
    rank_binary_matrix M0 =
      Module.finrank (ZMod 2) (Submodule.span (ZMod 2) (rowSet M0)) := by
  have h0 : InvA M0 0 (M0, 0) := by
    refine ⟨by omega, by omega, hM0, rfl, ?_, fun _ => 0, ?_, ?_⟩
    · intro r _ _
      exact hM0 r
    · intro i j _ hj
      exact absurd hj (Nat.not_lt_zero j)
    · intro i hi
      exact absurd hi (Nat.not_lt_zero i)
  have hfin := colsLoop_inv rbmStep (InvA M0) 32 0 (M0, 0) h0
    (fun d s _ hdlt hP => rbmStep_inv M0 d (by omega) s hP)
  obtain ⟨st, hst⟩ : ∃ st, colsLoop rbmStep 0 32 (M0, 0) = st := ⟨_, rfl⟩
  rw [hst] at hfin
  obtain ⟨mf, kf⟩ := st
  obtain ⟨-, hk32, hbound, hspan, hact, b, hdec, hstair⟩ := hfin
  dsimp only at hk32 hbound hspan hact hdec hstair
  have hzero : ∀ r, kf ≤ r → r < 32 → mf r = 0 := by
    intro r h1 h2
    have hlt : mf r < 1 := by simpa using hact r h1 h2
    omega
  have hli : LinearIndependent (ZMod 2) (fun i : Fin kf => toVec (mf i.val)) := by
    apply linearIndependent_marked_bits (fun i : Fin kf => mf i.val) (fun i => b i.val)
    · intro i
      exact (hstair i.val i.isLt).1
    · intro i
      exact (hstair i.val i.isLt).2.2.1
    · intro i j hij
      have hb : b j.val < b i.val := hdec i.val j.val hij j.isLt
      have hlt : mf j.val < 2 ^ b i.val :=
        lt_of_lt_of_le (hstair j.val j.isLt).2.2.2
          (Nat.pow_le_pow_right (by norm_num) (by omega))
      exact Nat.testBit_lt_two_pow hlt
  have hspan2 : Submodule.span (ZMod 2) (rowSet mf) =
      Submodule.span (ZMod 2) (Set.range fun i : Fin kf => toVec (mf i.val)) := by
    apply le_antisymm
    · rw [Submodule.span_le]
      rintro v ⟨r, rfl⟩
      dsimp only
      by_cases hr : r.val < kf
      · exact Submodule.subset_span ⟨⟨r.val, hr⟩, rfl⟩
      · rw [hzero r.val (by omega) r.isLt, toVec_zero]
        exact Submodule.zero_mem _
    · rw [Submodule.span_le]
      rintro v ⟨i, rfl⟩
      dsimp only
      exact Submodule.subset_span ⟨⟨i.val, by omega⟩, rfl⟩
  have hres : rank_binary_matrix M0 = kf := by
    rw [rank_binary_matrix, hst]
  rw [hres, ← hspan, hspan2, finrank_span_eq_card hli, Fintype.card_fin]

/-- Invariant of the NIST forward pass after processing columns `< c`:
the span is preserved and all entries strictly below the diagonal of a
processed column are zero. -/
def InvF (M0 : ℕ → ℕ) (c : ℕ) (m : ℕ → ℕ) : Prop :=
  (∀ r, m r < 2 ^ 32) ∧
  Submodule.span (ZMod 2) (rowSet m) = Submodule.span (ZMod 2) (rowSet M0) ∧
  (∀ d, d < c → ∀ r, d < r → r < 32 → (m r).testBit (31 - d) = false)

/-- The elimination phase of a NIST forward column, given a pivot bit at
the diagonal. -/
theorem nistElim_inv (M0 : ℕ → ℕ) (c : ℕ) (hc : c < 32) (m1 : ℕ → ℕ)
    (hbound : ∀ r, m1 r < 2 ^ 32)
    (hspan : Submodule.span (ZMod 2) (rowSet m1) = Submodule.span (ZMod 2) (rowSet M0))
    (htri : ∀ d, d < c → ∀ r, d < r → r < 32 → (m1 r).testBit (31 - d) = false)
    (hpbit : (m1 c).testBit (31 - c) = true) :
    InvF M0 (c + 1)
      (fun r => if c + 1 ≤ r ∧ r < 32 ∧ m1 r &&& 1 <<< (31 - c) ≠ 0 then
        m1 r ^^^ m1 c else m1 r) := by
  refine ⟨?_, ?_, ?_⟩
  · intro r
    dsimp only
    split_ifs with h
    · exact Nat.xor_lt_two_pow (hbound r) (hbound c)
    · exact hbound r
  · exact (span_batch_xor m1 hc _ (fun hcontra => absurd hcontra.1 (by omega))).trans hspan
  · intro d hd r hdr hr32
    dsimp only
    by_cases hdc : d = c
    · rw [hdc]
      split_ifs with hcond
      · have hrbit : (m1 r).testBit (31 - c) = true := (and_mask_ne _ _).mp hcond.2.2
        rw [Nat.testBit_xor, hrbit, hpbit]
        rfl
      · cases h' : (m1 r).testBit (31 - c)
        · rfl
        · exact absurd ⟨by omega, hr32, (and_mask_ne _ _).mpr h'⟩ hcond
    · have hdlt : d < c := by omega
      split_ifs with hcond
      · rw [Nat.testBit_xor, htri d hdlt r hdr hr32, htri d hdlt c (by omega) hc]
        rfl
      · exact htri d hdlt r hdr hr32

theorem nistFwdStep_inv (M0 : ℕ → ℕ) (c : ℕ) (hc : c < 32) (m : ℕ → ℕ)
    (h : InvF M0 c m) : InvF M0 (c + 1) (nistFwdStep m c) := by
  obtain ⟨hbound, hspan, htri⟩ := h
  by_cases hc0 : m c &&& 1 <<< (31 - c) = 0
  · rcases hfind : findFrom (fun r => decide (m r &&& 1 <<< (31 - c) ≠ 0)) (c + 1)
        (32 - (c + 1)) with _ | r0
    · -- no pivot anywhere in the column: the step is the identity
      have hstep : nistFwdStep m c = m := by
        simp only [nistFwdStep, if_pos hc0, hfind]
        rw [if_neg (fun hne => hne hc0)]
      rw [hstep]
      have hnone := findFrom_none _ _ _ hfind
      refine ⟨hbound, hspan, ?_⟩
      intro d hd r hdr hr32
      by_cases hdc : d = c
      · rw [hdc]
        have hfalse := hnone r (by omega) (by omega)
        rw [decide_eq_false_iff_not, not_not] at hfalse
        cases h' : (m r).testBit (31 - c)
        · rfl
        · exact absurd hfalse ((and_mask_ne _ _).mpr h')
      · exact htri d (by omega) r hdr hr32
    · -- pivot found below the diagonal: swap it up, then eliminate
      obtain ⟨hp, hc1r0, hr0lt, -⟩ := findFrom_some _ _ _ _ hfind
      have hr032 : r0 < 32 := by omega
      have hr0bit : (m r0).testBit (31 - c) = true :=
        (and_mask_ne _ _).mp (of_decide_eq_true hp)
      have hswc : swapRows m c r0 c = m r0 := swapRows_at_i m c r0
      have hstep : nistFwdStep m c =
          (fun r => if c + 1 ≤ r ∧ r < 32 ∧ swapRows m c r0 r &&& 1 <<< (31 - c) ≠ 0 then
            swapRows m c r0 r ^^^ swapRows m c r0 c else swapRows m c r0 r) := by
        simp only [nistFwdStep, if_pos hc0, hfind]
        rw [if_pos (by rw [hswc]; exact (and_mask_ne _ _).mpr hr0bit)]
      rw [hstep]
      have hm1cases : ∀ r, swapRows m c r0 r = m r0 ∨ swapRows m c r0 r = m c ∨
          (swapRows m c r0 r = m r ∧ r ≠ c ∧ r ≠ r0) := by
        intro r
        by_cases hrc : r = c
        · left; rw [hrc]; exact hswc
        · by_cases hrr0 : r = r0
          · right; left; rw [hrr0]; exact swapRows_at_j m c r0
          · right; right; exact ⟨swapRows_at_other m hrc hrr0, hrc, hrr0⟩
      apply nistElim_inv M0 c hc _
      · intro r
        rcases hm1cases r with h | h | ⟨h, -, -⟩ <;> rw [h] <;> exact hbound _
      · exact (span_rowSet_swap m hc hr032).trans hspan
      · intro d hd r hdr hr32
        rcases hm1cases r with h | h | ⟨h, -, -⟩ <;> rw [h]
        · exact htri d hd r0 (by omega) hr032
        · exact htri d hd c (by omega) hc
        · exact htri d hd r hdr hr32
      · rw [hswc]
        exact hr0bit
  · -- diagonal already holds the pivot bit
    have hpbit : (m c).testBit (31 - c) = true := (and_mask_ne _ _).mp hc0
    have hstep : nistFwdStep m c =
        (fun r => if c + 1 ≤ r ∧ r < 32 ∧ m r &&& 1 <<< (31 - c) ≠ 0 then
          m r ^^^ m c else m r) := by
      simp only [nistFwdStep, if_neg hc0]
      rw [if_pos hc0]
    rw [hstep]
    exact nistElim_inv M0 c hc m hbound hspan htri hpbit

/-- After the forward pass the matrix is upper triangular (row `r` fits
in the low `32 - r` bits) and the row span is unchanged. -/
theorem nistFwd_triangular (M0 : ℕ → ℕ) (hM0 : ∀ r, M0 r < 2 ^ 32) (T : ℕ → ℕ)
    (hT : colsLoop nistFwdStep 0 32 M0 = T) :
    (∀ r, T r < 2 ^ 32) ∧
    Submodule.span (ZMod 2) (rowSet T) = Submodule.span (ZMod 2) (rowSet M0) ∧
    (∀ r, r < 32 → T r < 2 ^ (32 - r)) := by
  have h0 : InvF M0 0 M0 := ⟨hM0, rfl, fun d hd => absurd hd (Nat.not_lt_zero d)⟩
  have hfin := colsLoop_inv nistFwdStep (InvF M0) 32 0 M0 h0
    (fun d s _ hdlt hP => nistFwdStep_inv M0 d (by omega) s hP)
  rw [hT] at hfin
  obtain ⟨hbound, hspan, htri⟩ := hfin
  refine ⟨hbound, hspan, ?_⟩
  intro r hr32
  apply lt_two_pow_of_high_bits_false (32 - r) 32 (T r) (hbound r)
  intro j hjt hj32
  have hd : (31 - j) < r := by omega
  have := htri (31 - j) (by omega) r hd hr32
  have hjeq : 31 - (31 - j) = j := by omega
  rw [hjeq] at this
  exact this

/-- Invariant of the NIST reverse pass with columns `≥ c` processed:
rows above the processed block stay triangular, every nonzero processed
row carries its diagonal bit, and no row above a processed diagonal
carries that column's bit. -/
def InvR (M0 : ℕ → ℕ) (c : ℕ) (m : ℕ → ℕ) : Prop :=
  (∀ r, m r < 2 ^ 32) ∧
  Submodule.span (ZMod 2) (rowSet m) = Submodule.span (ZMod 2) (rowSet M0) ∧
  (∀ r, r < c → m r < 2 ^ (32 - r)) ∧
  (∀ r, c ≤ r → r < 32 → m r ≠ 0 → (m r).testBit (31 - r) = true) ∧
  (∀ d, c ≤ d → d < 32 → ∀ r, r < d → (m r).testBit (31 - d) = false)

/-- The elimination phase of a NIST reverse column. -/
theorem nistRevElim_inv (M0 : ℕ → ℕ) (c : ℕ) (hc : c < 32) (m1 : ℕ → ℕ)
    (hbound : ∀ r, m1 r < 2 ^ 32)
    (hspan : Submodule.span (ZMod 2) (rowSet m1) = Submodule.span (ZMod 2) (rowSet M0))
    (hH2 : ∀ r, r < c → m1 r < 2 ^ (32 - r))
    (hpiv : ∀ r, r < c → (m1 r).testBit (31 - c) = true → m1 c < 2 ^ (32 - r))
    (hH1 : ∀ r, c + 1 ≤ r → r < 32 → m1 r ≠ 0 → (m1 r).testBit (31 - r) = true)
    (hH4 : ∀ d, c + 1 ≤ d → d < 32 → ∀ r, r < d → (m1 r).testBit (31 - d) = false)
    (hpbit : (m1 c).testBit (31 - c) = true) :
    InvR M0 c
      (fun r => if r < c ∧ m1 r &&& 1 <<< (31 - c) ≠ 0 then m1 r ^^^ m1 c else m1 r) := by
  refine ⟨?_, ?_, ?_, ?_, ?_⟩
  · intro r
    dsimp only
    split_ifs with h
    · exact Nat.xor_lt_two_pow (hbound r) (hbound c)
    · exact hbound r
  · exact (span_batch_xor m1 hc _ (fun hcontra => absurd hcontra.1 (by omega))).trans hspan
  · intro r hr
    dsimp only
    split_ifs with hcond
    · exact Nat.xor_lt_two_pow (hH2 r hr)
        (hpiv r hr ((and_mask_ne _ _).mp hcond.2))
    · exact hH2 r hr
  · intro r hcr hr32 hne
    dsimp only at hne ⊢
    have hcond : ¬(r < c ∧ m1 r &&& 1 <<< (31 - c) ≠ 0) :=
      fun hcontra => absurd hcontra.1 (by omega)
    rw [if_neg hcond] at hne ⊢
    rcases Nat.eq_or_lt_of_le hcr with rfl | hgt
    · exact hpbit
    · exact hH1 r (by omega) hr32 hne
  · intro d hcd hd32 r hrd
    dsimp only
    by_cases hdc : d = c
    · rw [hdc] at hrd ⊢
      split_ifs with hcond
      · have hrbit : (m1 r).testBit (31 - c) = true := (and_mask_ne _ _).mp hcond.2
        rw [Nat.testBit_xor, hrbit, hpbit]
        rfl
      · cases h' : (m1 r).testBit (31 - c)
        · rfl
        · exact absurd ⟨hrd, (and_mask_ne _ _).mpr h'⟩ hcond
    · have hd1 : c + 1 ≤ d := by omega
      split_ifs with hcond
      · rw [Nat.testBit_xor, hH4 d hd1 hd32 r hrd, hH4 d hd1 hd32 c (by omega)]
        rfl
      · exact hH4 d hd1 hd32 r hrd

theorem nistRevStep_inv (M0 : ℕ → ℕ) (c : ℕ) (hc : c < 32) (m : ℕ → ℕ)
    (h : InvR M0 (c + 1) m) : InvR M0 c (nistRevStep m c) := by
  obtain ⟨hbound, hspan, hH2, hH1, hH4⟩ := h
  by_cases hc0 : m c &&& 1 <<< (31 - c) = 0
  · rcases hfind : findDesc (fun r => decide (m r &&& 1 <<< (31 - c) ≠ 0)) c with _ | r'
    · -- the whole column is empty: the step is the identity, and the
      -- diagonal row itself must be the zero row
      have hstep : nistRevStep m c = m := by
        simp only [nistRevStep, if_pos hc0, hfind]
        rw [if_neg (fun hne => hne hc0)]
      rw [hstep]
      have hnone := findDesc_none _ _ hfind
      have hczero : ∀ j, j < 32 - c → (m c).testBit j = false := by
        intro j hj
        rcases Nat.lt_or_ge j (31 - c) with hjlt | hjge
        · have hd32 : 31 - j < 32 := by omega
          have := hH4 (31 - j) (by omega) hd32 c (by omega)
          have hjeq : 31 - (31 - j) = j := by omega
          rw [hjeq] at this
          exact this
        · have hjeq : j = 31 - c := by omega
          rw [hjeq]
          cases h' : (m c).testBit (31 - c)
          · rfl
          · exact absurd hc0 ((and_mask_ne _ _).mpr h')
      have hmc0 : m c = 0 := by
        have hlt : m c < 2 ^ 0 :=
          lt_two_pow_of_high_bits_false 0 (32 - c) (m c) (hH2 c (by omega))
            (fun j _ hj => hczero j hj)
        omega
      refine ⟨hbound, hspan, fun r hr => hH2 r (by omega), ?_, ?_⟩
      · intro r hcr hr32 hne
        rcases Nat.eq_or_lt_of_le hcr with rfl | hgt
        · exact absurd hmc0 hne
        · exact hH1 r (by omega) hr32 hne
      · intro d hcd hd32 r hrd
        by_cases hdc : d = c
        · rw [hdc] at hrd ⊢
          have hfalse := hnone r hrd
          rw [decide_eq_false_iff_not, not_not] at hfalse
          cases h' : (m r).testBit (31 - c)
          · rfl
          · exact absurd hfalse ((and_mask_ne _ _).mpr h')
        · exact hH4 d (by omega) hd32 r hrd
    · -- pivot found above: swap it down to the diagonal, then eliminate
      obtain ⟨hp, hr'c, hgap⟩ := findDesc_some _ _ _ hfind
      have hr'bit : (m r').testBit (31 - c) = true :=
        (and_mask_ne _ _).mp (of_decide_eq_true hp)
      have hswc : swapRows m c r' c = m r' := swapRows_at_i m c r'
      have hstep : nistRevStep m c =
          (fun r => if r < c ∧ swapRows m c r' r &&& 1 <<< (31 - c) ≠ 0 then
            swapRows m c r' r ^^^ swapRows m c r' c else swapRows m c r' r) := by
        simp only [nistRevStep, if_pos hc0, hfind]
        rw [if_pos (by rw [hswc]; exact (and_mask_ne _ _).mpr hr'bit)]
      rw [hstep]
      have hm1cases : ∀ r, (swapRows m c r' r = m r' ∧ r = c) ∨
          (swapRows m c r' r = m c ∧ r = r') ∨
          (swapRows m c r' r = m r ∧ r ≠ c ∧ r ≠ r') := by
        intro r
        by_cases hrc : r = c
        · left; rw [hrc]; exact ⟨hswc, rfl⟩
        · by_cases hrr' : r = r'
          · right; left; rw [hrr']; exact ⟨swapRows_at_j m c r', rfl⟩
          · right; right; exact ⟨swapRows_at_other m hrc hrr', hrc, hrr'⟩
      apply nistRevElim_inv M0 c hc _
      · intro r
        rcases hm1cases r with ⟨h, -⟩ | ⟨h, -⟩ | ⟨h, -, -⟩ <;> rw [h] <;> exact hbound _
      · exact (span_rowSet_swap m hc (by omega)).trans hspan
      · -- triangularity above the diagonal
        intro r hr
        rcases hm1cases r with ⟨-, rfl⟩ | ⟨h, rfl⟩ | ⟨h, -, -⟩
        · omega
        · rw [h]
          exact lt_of_lt_of_le (hH2 c (by omega))
            (Nat.pow_le_pow_right (by norm_num) (by omega))
        · rw [h]
          exact hH2 r (by omega)
      · -- the pivot value fits the bound of every eliminated row
        intro r hr hrbit
        rw [hswc]
        rcases hm1cases r with ⟨-, rfl⟩ | ⟨h, rfl⟩ | ⟨h, -, hrr'⟩
        · omega
        · rw [h] at hrbit
          cases h' : (m c).testBit (31 - c)
          · rw [h'] at hrbit; exact absurd hrbit Bool.false_ne_true
          · exact absurd hc0 ((and_mask_ne _ _).mpr h')
        · rw [h] at hrbit
          have hrlt : r < r' := by
            rcases Nat.lt_or_ge r r' with h1 | h1
            · exact h1
            · have : r' < r := by omega
              have := hgap r this hr
              rw [decide_eq_false_iff_not, not_not] at this
              exact absurd this ((and_mask_ne _ _).mpr hrbit).elim
          exact lt_of_lt_of_le (hH2 r' (by omega))
            (Nat.pow_le_pow_right (by norm_num) (by omega))
      · -- diagonal bits of processed rows below
        intro r hcr hr32 hne
        rcases hm1cases r with ⟨-, rfl⟩ | ⟨h, rfl⟩ | ⟨h, -, -⟩
        · omega
        · omega
        · rw [h] at hne ⊢
          exact hH1 r (by omega) hr32 hne
      · -- processed columns stay clear above their diagonals
        intro d hd1 hd32 r hrd
        rcases hm1cases r with ⟨h, rfl⟩ | ⟨h, rfl⟩ | ⟨h, -, -⟩ <;> rw [h]
        · exact hH4 d (by omega) hd32 r' (by omega)
        · exact hH4 d (by omega) hd32 c (by omega)
        · exact hH4 d (by omega) hd32 r hrd
      · rw [hswc]
        exact hr'bit
  · -- the diagonal already carries the bit: eliminate upwards
    have hpbit : (m c).testBit (31 - c) = true := (and_mask_ne _ _).mp hc0
    have hstep : nistRevStep m c =
        (fun r => if r < c ∧ m r &&& 1 <<< (31 - c) ≠ 0 then m r ^^^ m c else m r) := by
      simp only [nistRevStep, if_neg hc0]
      rw [if_pos hc0]
    rw [hstep]
    apply nistRevElim_inv M0 c hc m hbound hspan (fun r hr => hH2 r (by omega))
      ?_ (fun r h1 h2 => hH1 r (by omega) h2) (fun d h1 => hH4 d (by omega)) hpbit
    intro r hr _
    exact lt_of_lt_of_le (hH2 c (by omega)) (Nat.pow_le_pow_right (by norm_num) (by omega))

/-- Counting rows equal to zero and collecting the nonzero rows partition the
row list. -/
theorem countP_filter_split (F : ℕ → ℕ) (l : List ℕ) :
    l.countP (fun r => decide (F r = 0)) +
      (l.filter (fun r => decide (F r ≠ 0))).length = l.length := by
  induction l with
  | nil => rfl
  | cons a t ih =>
    rw [List.countP_cons, List.filter_cons]
    by_cases ha : F a = 0
    · rw [if_pos (by simp [ha] : decide (F a = 0) = true),
        if_neg (by simp [ha] : ¬decide (F a ≠ 0) = true), List.length_cons]
      omega
    · rw [if_neg (by simp [ha] : ¬decide (F a = 0) = true),
        if_pos (by simp [ha] : decide (F a ≠ 0) = true), List.length_cons,
        List.length_cons]
      omega

/-- The NIST implementation computes the GF(2) row rank. -/
theorem rank_binary_matrix_nist_eq_finrank (M0 : ℕ → ℕ) (hM0 : ∀ r, M0 r < 2 ^ 32) :
    rank_binary_matrix_nist M0 =
      Module.finrank (ZMod 2) (Submodule.span (ZMod 2) (rowSet M0)) := by
  obtain ⟨T, hT⟩ : ∃ T, colsLoop nistFwdStep 0 32 M0 = T := ⟨_, rfl⟩
  obtain ⟨hTbound, hTspan, hTtri⟩ := nistFwd_triangular M0 hM0 T hT
  have hR0 : InvR M0 32 T := by
    refine ⟨hTbound, hTspan, fun r hr => hTtri r hr, ?_, ?_⟩
    · intro r h1 h2 _
      omega
    · intro d h1 h2
      omega
  have hRfin := colsLoopRev_inv nistRevStep (InvR M0) 32 T hR0
    (fun c s hcn hP => nistRevStep_inv M0 c (by omega) s hP)
  obtain ⟨F, hF⟩ : ∃ F, colsLoopRev nistRevStep 32 T = F := ⟨_, rfl⟩
  rw [hF] at hRfin
  obtain ⟨hFbound, hFspan, -, hH1, hH4⟩ := hRfin
  obtain ⟨nz, hnz⟩ : ∃ nz, (List.range 32).filter (fun r => decide (F r ≠ 0)) = nz :=
    ⟨_, rfl⟩
  have hmem : ∀ i : Fin nz.length, nz.get i < 32 ∧ F (nz.get i) ≠ 0 := by
    intro i
    obtain ⟨x, hx⟩ : ∃ x, nz.get i = x := ⟨_, rfl⟩
    have hmem1 : x ∈ nz := by
      rw [← hx]
      exact nz.get_mem i.val i.isLt
    rw [← hnz, List.mem_filter] at hmem1
    rw [hx]
    exact ⟨List.mem_range.mp hmem1.1, of_decide_eq_true hmem1.2⟩
  have hsorted : ∀ i j : Fin nz.length, i < j → nz.get i < nz.get j := by
    have hp : nz.Pairwise (· < ·) := by
      rw [← hnz]
      exact (List.pairwise_lt_range 32).filter _
    exact fun i j hij => List.pairwise_iff_get.mp hp i j hij
  have hli : LinearIndependent (ZMod 2)
      (fun i : Fin nz.length => toVec (F (nz.get i))) := by
    apply linearIndependent_marked_bits_rev (fun i => F (nz.get i))
      (fun i => 31 - nz.get i)
    · intro i
      have := (hmem i).1
      omega
    · intro i
      exact hH1 (nz.get i) (Nat.zero_le _) (hmem i).1 (hmem i).2
    · intro i j hij
      exact hH4 (nz.get j) (Nat.zero_le _) (hmem j).1 (nz.get i) (hsorted i j hij)
  have hspan2 : Submodule.span (ZMod 2) (rowSet F) =
      Submodule.span (ZMod 2)
        (Set.range fun i : Fin nz.length => toVec (F (nz.get i))) := by
    apply le_antisymm
    · rw [Submodule.span_le]
      rintro v ⟨r, rfl⟩
      dsimp only
      by_cases hz : F r.val = 0
      · rw [hz, toVec_zero]
        exact Submodule.zero_mem _
      · have hmem2 : r.val ∈ nz := by
          rw [← hnz, List.mem_filter]
          exact ⟨List.mem_range.mpr r.isLt, decide_eq_true hz⟩
        obtain ⟨n, hn⟩ := List.mem_iff_get.mp hmem2
        refine Submodule.subset_span ⟨n, ?_⟩
        show toVec (F (nz.get n)) = toVec (F r.val)
        rw [hn]
    · rw [Submodule.span_le]
      rintro v ⟨i, rfl⟩
      dsimp only
      exact Submodule.subset_span ⟨⟨nz.get i, (hmem i).1⟩, rfl⟩
  have hcount : rank_binary_matrix_nist M0 = nz.length := by
    simp only [rank_binary_matrix_nist]
    rw [hT, hF]
    have h32 := countP_filter_split F (List.range 32)
    rw [hnz, List.length_range] at h32
    omega
  rw [hcount, ← hFspan, hspan2, finrank_span_eq_card hli, Fintype.card_fin]

/-- C7: for every `[u32; 32]` input matrix (rows below `2^32`), the forward-only
rank implementation `rank_binary_matrix` and the NIST reference implementation
`rank_binary_matrix_nist` return the same GF(2) rank: both equal the dimension
of the GF(2) span of the rows. -/
theorem C7_rank_implementations_agree (mat : ℕ → ℕ) (hm : ∀ r, mat r < 2 ^ 32) :
    rank_binary_matrix mat = rank_binary_matrix_nist mat := by
  rw [rank_binary_matrix_eq_finrank mat hm, rank_binary_matrix_nist_eq_finrank mat hm]

/-- Witness for C7 at the all-ones-row matrix. -/
theorem C7_rank_implementations_agree_witness :
    rank_binary_matrix (fun _ => 1) = rank_binary_matrix_nist (fun _ => 1) :=
  C7_rank_implementations_agree (fun _ => 1) (fun _ => by norm_num)

end Pearlacid
